import Mathlib

/-!
Mach-V UART calculator (`sw/calculator/uart_calculator.c`)

A shallow embedding of the calculator firmware: the two global word arrays
`test_data` and `scratch_mem`, the blocking UART helpers, `read_operand`, and one
pass through the body of `main`'s `while (1)` loop.

Conventions.
* `uint32_t` / `uint8_t` values are natural numbers; every C operation that can leave the
  range is followed by an explicit reduction modulo `2^32` (or `2^8`, `2^16`, `2^64`).
* `(int32_t)x` is the two's-complement reading `i32 x`; storing a signed value back into a
  `uint32_t` is `u32`.
* The firmware runs on a little-endian RV32 core, so byte `k` of a word `w` is
  `w / 2^(8k) % 256`: sub-word loads and stores through the `uint8_t *` / `uint16_t *`
  views of the arrays select lanes of the underlying words.
* Signed `/` and `%` truncate toward zero (`Int.tdiv`, `Int.tmod`) and their value is stored
  in `t4` modulo `2^32` like every other result.  The one quotient that does not fit
  `int32_t`, INT_MIN / -1 = 2^31, is therefore 0x80000000 with remainder 0, which is what
  the `div` and `rem` instructions of the RV32 core return.
* A memory access outside its array yields `none`.
* The memory-mapped registers are an explicit state `Mmio`: the values that the
  successive reads of each input register will return, and the trace of data-register
  accesses performed so far.  A polling loop consumes scheduled reads until one has bit 0
  set; if it uses them all up without seeing one it yields `none` (it blocks).
-/

namespace MachV

/-! ## Machine integers -/

/-- Conversion of an integer value to `uint32_t`. -/
def u32 (z : Int) : Nat := (z % 2 ^ 32).toNat

/-- The cast `(int32_t)x` of a 32-bit pattern. -/
def i32 (x : Nat) : Int := if x < 2 ^ 31 then (x : Int) else (x : Int) - 2 ^ 32

/-- The cast `(int8_t)x` of an 8-bit pattern. -/
def i8 (x : Nat) : Int := if x < 2 ^ 7 then (x : Int) else (x : Int) - 2 ^ 8

/-- The cast `(int16_t)x` of a 16-bit pattern. -/
def i16 (x : Nat) : Int := if x < 2 ^ 15 then (x : Int) else (x : Int) - 2 ^ 16

/-! ## Data sections -/

/-- The two global arrays: `uint32_t test_data[4]` and `uint32_t scratch_mem[1]`. -/
structure Mem where
  test_data : Fin 4 → Nat
  scratch_mem : Fin 1 → Nat
  deriving DecidableEq

/-- Initialiser of `test_data`. -/
def test_data : Fin 4 → Nat
  | 0 => 0x12345678
  | 1 => 0x9ABCDEF0
  | 2 => 0xAABBCCDD
  | 3 => 0xEEFF0011

/-- Initialiser of `scratch_mem`. -/
def scratch_mem : Fin 1 → Nat := fun _ => 0x00000000

/-- Memory at program start. -/
def initial_mem : Mem := ⟨test_data, scratch_mem⟩

/-- Read of a `uint8_t` at byte offset `off` of a word array (`ptr[off]` on a byte pointer). -/
def load_u8 {n : Nat} (arr : Fin n → Nat) (off : Nat) : Option Nat :=
  if h : off / 4 < n then some (arr ⟨off / 4, h⟩ / 2 ^ (8 * (off % 4)) % 2 ^ 8) else none

/-- Read of a `uint16_t` at byte offset `off` of a word array
(`*(uint16_t *)(ptr + off)`); the half-word has to lie inside one word. -/
def load_u16 {n : Nat} (arr : Fin n → Nat) (off : Nat) : Option Nat :=
  if h : off / 4 < n ∧ off % 4 ≤ 2 then
    some (arr ⟨off / 4, h.1⟩ / 2 ^ (8 * (off % 4)) % 2 ^ 16)
  else none

/-- Word `w` with the `width`-bit lane starting at bit `sh` replaced by `v`. -/
def set_lane (w sh width v : Nat) : Nat :=
  w - (w / 2 ^ sh % 2 ^ width) * 2 ^ sh + (v % 2 ^ width) * 2 ^ sh

/-- Write of a `uint8_t` at byte offset `off` of a word array (`ptr[off] = v`). -/
def store_u8 {n : Nat} (arr : Fin n → Nat) (off v : Nat) : Option (Fin n → Nat) :=
  if h : off / 4 < n then
    some (Function.update arr ⟨off / 4, h⟩ (set_lane (arr ⟨off / 4, h⟩) (8 * (off % 4)) 8 v))
  else none

/-- Write of a `uint16_t` at byte offset `off` of a word array
(`*(uint16_t *)(ptr + off) = v`); the half-word has to lie inside one word. -/
def store_u16 {n : Nat} (arr : Fin n → Nat) (off v : Nat) : Option (Fin n → Nat) :=
  if h : off / 4 < n ∧ off % 4 ≤ 2 then
    some (Function.update arr ⟨off / 4, h.1⟩
      (set_lane (arr ⟨off / 4, h.1⟩) (8 * (off % 4)) 16 v))
  else none

/-! ## Step 4 of the main loop: the opcode switch -/

/-- The `switch (cmd)` of `main` together with the preceding `t4 = 0`: from the command byte,
the operands `s10`, `s11` and the memory, the value of `t4` after the switch and the memory
after it. -/
def dispatch (cmd s10 s11 : Nat) (m : Mem) : Option (Nat × Mem) :=
  let t4 := 0
  -- Arithmetic
  if cmd = 'a'.toNat then some ((s10 + s11) % 2 ^ 32, m)
  else if cmd = 's'.toNat then some (u32 ((s10 : Int) - (s11 : Int)), m)
  -- Logical
  else if cmd = 'x'.toNat then some (s10 ^^^ s11, m)
  else if cmd = 'o'.toNat then some (s10 ||| s11, m)
  else if cmd = 'c'.toNat then some (s10 &&& s11, m)
  -- Comparison
  else if cmd = 'l'.toNat then some (if i32 s10 < i32 s11 then 1 else 0, m)
  else if cmd = 'u'.toNat then some (if s10 < s11 then 1 else 0, m)
  -- Shift
  else if cmd = 'L'.toNat then some ((s10 <<< (s11 &&& 0x1F)) % 2 ^ 32, m)
  else if cmd = 'R'.toNat then some (s10 >>> (s11 &&& 0x1F), m)
  else if cmd = 'A'.toNat then some (u32 (i32 s10 >>> (s11 &&& 0x1F)), m)
  -- Multiply
  else if cmd = 'm'.toNat then some ((s10 * s11) % 2 ^ 32, m)
  else if cmd = 'H'.toNat then some (u32 ((i32 s10 * i32 s11) >>> 32), m)
  else if cmd = 'h'.toNat then some ((((s10 * s11) % 2 ^ 64) >>> 32) % 2 ^ 32, m)
  -- Divide
  else if cmd = 'd'.toNat then
    some (if s11 = 0 then 0xFFFFFFFF else u32 (Int.tdiv (i32 s10) (i32 s11)), m)
  else if cmd = 'D'.toNat then
    some (if s11 = 0 then 0xFFFFFFFF else s10 / s11, m)
  else if cmd = 'r'.toNat then
    some (if s11 = 0 then 0xFFFFFFFF else u32 (Int.tmod (i32 s10) (i32 s11)), m)
  else if cmd = 'M'.toNat then
    some (if s11 = 0 then 0xFFFFFFFF else s10 % s11, m)
  -- Branches
  else if cmd = 'b'.toNat then some (if i32 s10 < i32 s11 then 1 else 0, m)
  else if cmd = 'B'.toNat then some (if i32 s10 ≥ i32 s11 then 1 else 0, m)
  else if cmd = 'n'.toNat then some (if s10 < s11 then 1 else 0, m)
  else if cmd = 'N'.toNat then some (if s10 ≥ s11 then 1 else 0, m)
  -- Load operations (from test_data)
  else if cmd = '1'.toNat then
    (load_u8 m.test_data (s10 &&& 0xF)).map fun byte => (u32 (i8 byte), m)
  else if cmd = '2'.toNat then
    (load_u8 m.test_data (s10 &&& 0xF)).map fun byte => (byte, m)
  else if cmd = '3'.toNat then
    (load_u16 m.test_data (s10 &&& 0xE)).map fun val => (u32 (i16 val), m)
  else if cmd = '4'.toNat then
    (load_u16 m.test_data (s10 &&& 0xE)).map fun val => (val, m)
  -- Store operations (to scratch_mem)
  else if cmd = '5'.toNat then
    let cleared := Function.update m.scratch_mem 0 0
    (store_u8 cleared (s10 &&& 0x3) (s11 &&& 0xFF)).map fun sm =>
      (sm 0, { m with scratch_mem := sm })
  else if cmd = '6'.toNat then
    let cleared := Function.update m.scratch_mem 0 0
    (store_u16 cleared (s10 &&& 0x2) (s11 &&& 0xFFFF)).map fun sm =>
      (sm 0, { m with scratch_mem := sm })
  else some (t4, m)

/-! ## Memory-mapped registers and the UART helpers -/

/-- An access to one of the data registers: a read of `UART_RX_DATA`, a write to
`UART_TX_DATA`, a write to `SEVENSEG`. -/
inductive Event where
  | rx (byte : Nat)
  | tx (byte : Nat)
  | sevenseg (value : Nat)
  deriving DecidableEq, Repr

/-- State of the register file as seen by the program: what the next reads of
`UART_RX_VALID`, `UART_RX_DATA` and `UART_TX_READY` return, and the accesses to the data
registers made so far, oldest first. -/
structure Mmio where
  rx_valid : List Nat
  rx_data : List Nat
  tx_ready : List Nat
  trace : List Event
  deriving DecidableEq, Repr

/-- The loop `while ((*REG & 1) == 0) ;` over the successive values read from `REG`: the reads
left once a value with bit 0 set has been seen, `none` when no such value comes. -/
def poll : List Nat → Option (List Nat)
  | [] => none
  | v :: vs => if v &&& 1 = 0 then poll vs else some vs

/-- Reads a single byte from UART (blocking). -/
def uart_read_byte (io : Mmio) : Option (Nat × Mmio) :=
  match poll io.rx_valid with
  | none => none
  | some rest =>
    match io.rx_data with
    | [] => none
    | d :: ds =>
      let byte := d % 2 ^ 8
      some (byte, { io with rx_valid := rest, rx_data := ds, trace := io.trace ++ [Event.rx byte] })

/-- Writes a single byte to UART (blocking). -/
def uart_write_byte (c : Nat) (io : Mmio) : Option Mmio :=
  match poll io.tx_ready with
  | none => none
  | some rest => some { io with tx_ready := rest, trace := io.trace ++ [Event.tx (c % 2 ^ 8)] }

/-- The `for` loop of `read_operand` with `k` iterations still to run. -/
def read_operand_loop : Nat → Nat → Mmio → Option (Nat × Mmio)
  | 0, result, io => some (result, io)
  | k + 1, result, io =>
    match uart_read_byte io with
    | none => none
    | some (byte, io1) =>
      match uart_write_byte byte io1 with
      | none => none
      | some io2 => read_operand_loop k (((result <<< 8) % 2 ^ 32) ||| byte) io2

/-- Reads 4 bytes (MSB first) to construct a 32-bit integer. -/
def read_operand (io : Mmio) : Option (Nat × Mmio) :=
  read_operand_loop 4 0 io

/-! ## Main loop -/

/-- One pass through the body of `while (1)` in `main`. -/
def main_body (m : Mem) (io : Mmio) : Option (Mem × Mmio) :=
  -- 1. Read Command
  match uart_read_byte io with
  | none => none
  | some (cmd, io1) =>
    -- 2. Echo Command
    match uart_write_byte cmd io1 with
    | none => none
    | some io2 =>
      -- 3. Read Operands
      match read_operand io2 with
      | none => none
      | some (s10, io3) =>
        match read_operand io3 with
        | none => none
        | some (s11, io4) =>
          -- 4. Execute Command
          match dispatch cmd s10 s11 m with
          | none => none
          | some (t4, m1) =>
            -- 5. Output Result to 7-Segment
            some (m1, { io4 with trace := io4.trace ++ [Event.sevenseg t4] })

/-- The first `n` passes of `main`, which never leaves its loop. -/
def main : Nat → Mem → Mmio → Option (Mem × Mmio)
  | 0, m, io => some (m, io)
  | n + 1, m, io =>
    match main_body m io with
    | none => none
    | some (m1, io1) => main n m1 io1

/-! ## Vocabulary of the statements -/

/-- Bytes written to `UART_TX_DATA`, in order. -/
def tx_bytes : List Event → List Nat
  | [] => []
  | Event.tx b :: es => b :: tx_bytes es
  | _ :: es => tx_bytes es

/-- Bytes read from `UART_RX_DATA`, in order. -/
def rx_bytes : List Event → List Nat
  | [] => []
  | Event.rx b :: es => b :: rx_bytes es
  | _ :: es => rx_bytes es

/-- Values written to `SEVENSEG`, in order. -/
def sevenseg_writes : List Event → List Nat
  | [] => []
  | Event.sevenseg v :: es => v :: sevenseg_writes es
  | _ :: es => sevenseg_writes es

/-- Every scheduled read of both status registers has bit 0 set, and at least `k` reads of
each are scheduled. -/
def Ready (k : Nat) (io : Mmio) : Prop :=
  k ≤ io.rx_valid.length ∧ k ≤ io.tx_ready.length ∧
    (∀ v ∈ io.rx_valid, v &&& 1 ≠ 0) ∧ (∀ v ∈ io.tx_ready, v &&& 1 ≠ 0)

instance (k : Nat) (io : Mmio) : Decidable (Ready k io) := by
  unfold Ready; infer_instance

/-- The 32-bit value whose bytes, most significant first, are `x0 x1 x2 x3`. -/
def be32 (x0 x1 x2 x3 : Nat) : Nat := x0 * 2 ^ 24 + x1 * 2 ^ 16 + x2 * 2 ^ 8 + x3

/-- The receive/echo events for a list of bytes. -/
def echo_events : List Nat → List Event
  | [] => []
  | b :: bs => Event.rx b :: Event.tx b :: echo_events bs

/-- Register state after the bytes `bs` have been received and echoed without waiting. -/
def after_echo (io : Mmio) (bs : List Nat) : Mmio :=
  { rx_valid := io.rx_valid.drop bs.length
    rx_data := io.rx_data.drop bs.length
    tx_ready := io.tx_ready.drop bs.length
    trace := io.trace ++ echo_events bs }

/-- The command bytes with a `case` label in the switch. -/
def recognized : List Nat :=
  ['a', 's', 'x', 'o', 'c', 'l', 'u', 'L', 'R', 'A', 'm', 'H', 'h', 'd', 'D', 'r', 'M',
   'b', 'B', 'n', 'N', '1', '2', '3', '4', '5', '6'].map Char.toNat

/-- The value of an 8-bit pattern sign-extended to 32 bits. -/
def sext8 (x : Nat) : Nat := if x < 0x80 then x else 0xFFFFFF00 + x

/-- The value of a 16-bit pattern sign-extended to 32 bits. -/
def sext16 (x : Nat) : Nat := if x < 0x8000 then x else 0xFFFF0000 + x

/-- Register state after one full transaction: nine bytes echoed, then the display write. -/
def after_transaction (io : Mmio) (bs : List Nat) (t4 : Nat) : Mmio :=
  { after_echo io bs with trace := (after_echo io bs).trace ++ [Event.sevenseg t4] }

/-- A register file that is ready at every poll and delivers the bytes `input`. -/
def ready_io (input : List Nat) : Mmio :=
  { rx_valid := List.replicate input.length 1
    rx_data := input
    tx_ready := List.replicate input.length 1
    trace := [] }

/-- Number of scheduled reads of a status register that have bit 0 set. -/
def ready_count : List Nat → Nat
  | [] => 0
  | v :: vs => if v &&& 1 = 0 then ready_count vs else ready_count vs + 1

/-- Both status registers still show bit 0 set in at least `k` of their scheduled reads,
however many reads with bit 0 clear come before or between them. -/
def Live (k : Nat) (io : Mmio) : Prop :=
  k ≤ ready_count io.rx_valid ∧ k ≤ ready_count io.tx_ready

instance (k : Nat) (io : Mmio) : Decidable (Live k io) := by
  unfold Live; infer_instance

/-- A register file that delivers the bytes `input` and makes every poll wait: each read of
`UART_RX_VALID` with bit 0 set comes after one read of 2, each such read of `UART_TX_READY`
after two reads of 0. -/
def waiting_io (input : List Nat) : Mmio :=
  { rx_valid := (List.replicate input.length [2, 3]).flatten
    rx_data := input
    tx_ready := (List.replicate input.length [0, 0, 1]).flatten
    trace := [] }

/-! ## Bit masks -/

theorem and_mask_lt (a k : Nat) : a &&& k < k + 1 :=
  Nat.lt_succ_of_le Nat.and_le_right

theorem and_even_mask (a k : Nat) (hk : k &&& 1 = 0) : (a &&& k) &&& 1 = 0 := by
  rw [Nat.and_assoc, hk, Nat.and_zero]

theorem and_14_cases (a : Nat) :
    a &&& 0xE = 0 ∨ a &&& 0xE = 2 ∨ a &&& 0xE = 4 ∨ a &&& 0xE = 6 ∨
    a &&& 0xE = 8 ∨ a &&& 0xE = 10 ∨ a &&& 0xE = 12 ∨ a &&& 0xE = 14 := by
  have h1 := and_mask_lt a 0xE
  have h2 := and_even_mask a 0xE (by decide)
  generalize a &&& 0xE = v at h1 h2 ⊢
  interval_cases v <;> simp_all

theorem and_2_cases (a : Nat) : a &&& 0x2 = 0 ∨ a &&& 0x2 = 2 := by
  have h1 := and_mask_lt a 0x2
  have h2 := and_even_mask a 0x2 (by decide)
  generalize a &&& 0x2 = v at h1 h2 ⊢
  interval_cases v <;> simp_all

theorem and_3_cases (a : Nat) : a &&& 0x3 = 0 ∨ a &&& 0x3 = 1 ∨ a &&& 0x3 = 2 ∨ a &&& 0x3 = 3 := by
  have h1 := and_mask_lt a 0x3
  generalize a &&& 0x3 = v at h1 ⊢
  interval_cases v <;> simp

theorem and_15_idem (a : Nat) : (a &&& 0xF) &&& 0xF = a &&& 0xF := by
  rw [Nat.and_assoc]; rfl

theorem and_15_of_lt (x : Nat) (hx : x < 16) : x &&& 0xF = x := by
  have h : x &&& 0xF = x % 16 := Nat.and_pow_two_sub_one_eq_mod x 4
  rw [h, Nat.mod_eq_of_lt hx]

theorem and_255_lt (b : Nat) : b &&& 0xFF < 2 ^ 8 := and_mask_lt b 0xFF

theorem and_65535_lt (b : Nat) : b &&& 0xFFFF < 2 ^ 16 := and_mask_lt b 0xFFFF

theorem mod_32_and_31 (b : Nat) : (b % 32) &&& 0x1F = b &&& 0x1F := by
  have h : ∀ x : Nat, x &&& 0x1F = x % 32 := fun x => Nat.and_pow_two_sub_one_eq_mod x 5
  rw [h, h, Nat.mod_mod]

theorem add_32_and_31 (b : Nat) : (b + 32) &&& 0x1F = b &&& 0x1F := by
  have h : ∀ x : Nat, x &&& 0x1F = x % 32 := fun x => Nat.and_pow_two_sub_one_eq_mod x 5
  rw [h, h, Nat.add_mod_right]

/-! ## Sign extension -/

theorem u32_i8 (x : Nat) (hx : x < 2 ^ 8) : u32 (i8 x) = sext8 x := by
  unfold u32 i8 sext8
  norm_num at hx ⊢
  by_cases h : x < 128
  · rw [if_pos h, if_pos h]; omega
  · rw [if_neg h, if_neg h]; omega

theorem u32_i16 (x : Nat) (hx : x < 2 ^ 16) : u32 (i16 x) = sext16 x := by
  unfold u32 i16 sext16
  norm_num at hx ⊢
  by_cases h : x < 32768
  · rw [if_pos h, if_pos h]; omega
  · rw [if_neg h, if_neg h]; omega

/-! ## Loads and stores on the word arrays -/

theorem load_u8_test_data (td : Fin 4 → Nat) (a : Nat) :
    load_u8 td (a &&& 0xF) =
      some (td ⟨(a &&& 0xF) / 4, by have := and_mask_lt a 0xF; omega⟩
        / 2 ^ (8 * ((a &&& 0xF) % 4)) % 2 ^ 8) := by
  have := and_mask_lt a 0xF
  unfold load_u8
  rw [dif_pos (by omega)]

/-- An aligned half-word read is the little-endian combination of the two byte reads at the
same place. -/
theorem load_u16_bytes {n : Nat} (arr : Fin n → Nat) (i : Nat) (heven : i % 2 = 0)
    (hin : i / 4 < n) :
    ∃ lo hi, load_u8 arr i = some lo ∧ load_u8 arr (i + 1) = some hi ∧
      load_u16 arr i = some (lo + 256 * hi) ∧ lo + 256 * hi < 2 ^ 16 := by
  have h1 : (i + 1) / 4 = i / 4 := by omega
  have hin1 : (i + 1) / 4 < n := by omega
  have hf : (⟨(i + 1) / 4, hin1⟩ : Fin n) = ⟨i / 4, hin⟩ := Fin.ext h1
  have h4 : i % 4 = 0 ∨ i % 4 = 2 := by omega
  refine ⟨arr ⟨i / 4, hin⟩ / 2 ^ (8 * (i % 4)) % 2 ^ 8,
    arr ⟨i / 4, hin⟩ / 2 ^ (8 * ((i + 1) % 4)) % 2 ^ 8, ?_, ?_, ?_, ?_⟩
  · unfold load_u8
    rw [dif_pos hin]
  · unfold load_u8
    rw [dif_pos hin1, hf]
  · unfold load_u16
    rw [dif_pos ⟨hin, by omega⟩]
    congr 1
    generalize arr ⟨i / 4, hin⟩ = w
    rcases h4 with h | h
    · have h' : (i + 1) % 4 = 1 := by omega
      rw [h, h']; norm_num; omega
    · have h' : (i + 1) % 4 = 3 := by omega
      rw [h, h']; norm_num; omega
  · generalize arr ⟨i / 4, hin⟩ / 2 ^ (8 * (i % 4)) = x
    generalize arr ⟨i / 4, hin⟩ / 2 ^ (8 * ((i + 1) % 4)) = y
    norm_num; omega

theorem load_u16_test_data (td : Fin 4 → Nat) (a : Nat) :
    ∃ val, load_u16 td (a &&& 0xE) = some val := by
  have hlt := and_mask_lt a 0xE
  have heven : (a &&& 0xE) % 2 = 0 := by
    rcases and_14_cases a with h | h | h | h | h | h | h | h <;> rw [h]
  obtain ⟨lo, hi, -, -, h, -⟩ := load_u16_bytes td (a &&& 0xE) heven (by omega)
  exact ⟨_, h⟩

theorem store_u8_cleared (sm : Fin 1 → Nat) (off v : Nat) (hoff : off < 4) (hv : v < 2 ^ 8) :
    store_u8 (Function.update sm 0 0) off v = some (fun _ => v <<< (8 * off)) := by
  have h0 : off / 4 = 0 := by omega
  have hin : off / 4 < 1 := by omega
  have hf : (⟨off / 4, hin⟩ : Fin 1) = 0 := Fin.ext h0
  unfold store_u8
  rw [dif_pos hin, hf]
  congr 1
  funext i
  have hi : i = 0 := Subsingleton.elim _ _
  subst hi
  simp [set_lane, Nat.mod_eq_of_lt hoff, Nat.mod_eq_of_lt hv, Nat.shiftLeft_eq]
  exact hv

theorem store_u16_cleared (sm : Fin 1 → Nat) (off v : Nat) (hoff : off ≤ 2)
    (hv : v < 2 ^ 16) :
    store_u16 (Function.update sm 0 0) off v = some (fun _ => v <<< (8 * off)) := by
  have h0 : off / 4 = 0 := by omega
  have hin : off / 4 < 1 := by omega
  have hmod : off % 4 = off := by omega
  have hf : (⟨off / 4, hin⟩ : Fin 1) = 0 := Fin.ext h0
  unfold store_u16
  rw [dif_pos ⟨hin, by omega⟩, hf]
  congr 1
  funext i
  have hi : i = 0 := Subsingleton.elim _ _
  subst hi
  simp [set_lane, hmod, Nat.mod_eq_of_lt hv, Nat.shiftLeft_eq]
  exact hv

/-! ## The switch, case by case -/

theorem dispatch_lbu (a b : Nat) (m : Mem) :
    dispatch '2'.toNat a b m = (load_u8 m.test_data (a &&& 0xF)).map fun byte => (byte, m) := by
  simp [dispatch]

theorem dispatch_lb (a b : Nat) (m : Mem) :
    dispatch '1'.toNat a b m =
      (load_u8 m.test_data (a &&& 0xF)).map fun byte => (u32 (i8 byte), m) := by
  simp [dispatch]

theorem dispatch_lhu (a b : Nat) (m : Mem) :
    dispatch '4'.toNat a b m = (load_u16 m.test_data (a &&& 0xE)).map fun val => (val, m) := by
  simp [dispatch]

theorem dispatch_lh (a b : Nat) (m : Mem) :
    dispatch '3'.toNat a b m =
      (load_u16 m.test_data (a &&& 0xE)).map fun val => (u32 (i16 val), m) := by
  simp [dispatch]

theorem dispatch_sb (a b : Nat) (m : Mem) :
    dispatch '5'.toNat a b m =
      (store_u8 (Function.update m.scratch_mem 0 0) (a &&& 0x3) (b &&& 0xFF)).map fun sm =>
        (sm 0, { m with scratch_mem := sm }) := by
  simp [dispatch]

theorem dispatch_sh (a b : Nat) (m : Mem) :
    dispatch '6'.toNat a b m =
      (store_u16 (Function.update m.scratch_mem 0 0) (a &&& 0x2) (b &&& 0xFFFF)).map fun sm =>
        (sm 0, { m with scratch_mem := sm }) := by
  simp [dispatch]

/-- A command byte without a case label leaves `t4` at its default 0 and the memory as it was. -/
theorem dispatch_unrecognized (c : Nat) (hc : c ∉ recognized) (a b : Nat) (m : Mem) :
    dispatch c a b m = some (0, m) := by
  simp only [recognized, List.map, List.mem_cons, List.mem_singleton, not_or,
    List.not_mem_nil, or_false] at hc
  obtain ⟨h1, h2, h3, h4, h5, h6, h7, h8, h9, h10, h11, h12, h13, h14, h15, h16, h17, h18,
    h19, h20, h21, h22, h23, h24, h25, h26, h27⟩ := hc
  simp only [dispatch, if_neg h1, if_neg h2, if_neg h3, if_neg h4, if_neg h5, if_neg h6,
    if_neg h7, if_neg h8, if_neg h9, if_neg h10, if_neg h11, if_neg h12, if_neg h13,
    if_neg h14, if_neg h15, if_neg h16, if_neg h17, if_neg h18, if_neg h19, if_neg h20,
    if_neg h21, if_neg h22, if_neg h23, if_neg h24, if_neg h25, if_neg h26, if_neg h27]

theorem dispatch_total (cmd s10 s11 : Nat) (m : Mem) :
    ∃ t4 m1, dispatch cmd s10 s11 m = some (t4, m1) := by
  by_cases hmem : cmd ∈ recognized
  · obtain ⟨val, hval⟩ := load_u16_test_data m.test_data s10
    have hoff : s10 &&& 0x2 ≤ 2 := Nat.and_le_right
    have hsb := store_u8_cleared m.scratch_mem _ _ (and_mask_lt s10 0x3) (and_255_lt s11)
    have hsh := store_u16_cleared m.scratch_mem _ _ hoff (and_65535_lt s11)
    simp only [recognized, List.map, List.mem_cons, List.mem_singleton, List.not_mem_nil,
      or_false] at hmem
    rcases hmem with h | h | h | h | h | h | h | h | h | h | h | h | h | h | h | h | h | h |
      h | h | h | h | h | h | h | h | h <;> subst h
    all_goals first
      | exact ⟨_, _, by simp [dispatch]; exact ⟨rfl, rfl⟩⟩
      | (rw [dispatch_lb, load_u8_test_data]; exact ⟨_, _, rfl⟩)
      | (rw [dispatch_lbu, load_u8_test_data]; exact ⟨_, _, rfl⟩)
      | (rw [dispatch_lh, hval]; exact ⟨_, _, rfl⟩)
      | (rw [dispatch_lhu, hval]; exact ⟨_, _, rfl⟩)
      | (rw [dispatch_sb, hsb]; exact ⟨_, _, rfl⟩)
      | (rw [dispatch_sh, hsh]; exact ⟨_, _, rfl⟩)
  · exact ⟨_, _, dispatch_unrecognized cmd hmem s10 s11 m⟩

/-! ## Traces -/

theorem tx_bytes_append (xs ys : List Event) :
    tx_bytes (xs ++ ys) = tx_bytes xs ++ tx_bytes ys := by
  induction xs with
  | nil => rfl
  | cons e es ih => cases e <;> simp [tx_bytes, ih]

theorem rx_bytes_append (xs ys : List Event) :
    rx_bytes (xs ++ ys) = rx_bytes xs ++ rx_bytes ys := by
  induction xs with
  | nil => rfl
  | cons e es ih => cases e <;> simp [rx_bytes, ih]

theorem sevenseg_writes_append (xs ys : List Event) :
    sevenseg_writes (xs ++ ys) = sevenseg_writes xs ++ sevenseg_writes ys := by
  induction xs with
  | nil => rfl
  | cons e es ih => cases e <;> simp [sevenseg_writes, ih]

theorem tx_bytes_echo_events (bs : List Nat) : tx_bytes (echo_events bs) = bs := by
  induction bs with
  | nil => rfl
  | cons b bs ih => simp [echo_events, tx_bytes, ih]

theorem rx_bytes_echo_events (bs : List Nat) : rx_bytes (echo_events bs) = bs := by
  induction bs with
  | nil => rfl
  | cons b bs ih => simp [echo_events, rx_bytes, ih]

theorem sevenseg_writes_echo_events (bs : List Nat) : sevenseg_writes (echo_events bs) = [] := by
  induction bs with
  | nil => rfl
  | cons b bs ih => simp [echo_events, sevenseg_writes, ih]

theorem echo_events_append (xs ys : List Nat) :
    echo_events (xs ++ ys) = echo_events xs ++ echo_events ys := by
  induction xs with
  | nil => rfl
  | cons b bs ih => simp [echo_events, ih]

theorem after_echo_nil (io : Mmio) : after_echo io [] = io := by
  simp [after_echo, echo_events]

theorem after_echo_append (io : Mmio) (xs ys : List Nat) :
    after_echo (after_echo io xs) ys = after_echo io (xs ++ ys) := by
  simp [after_echo, echo_events_append, List.drop_drop, Nat.add_comm]

/-! ## Register handshake when the status registers are always ready -/

theorem poll_cons_ready (v : Nat) (vs : List Nat) (h : v &&& 1 ≠ 0) :
    poll (v :: vs) = some vs := by
  rw [poll, if_neg h]

theorem Ready.mono {j k : Nat} {io : Mmio} (h : Ready k io) (hjk : j ≤ k) : Ready j io :=
  ⟨le_trans hjk h.1, le_trans hjk h.2.1, h.2.2⟩

theorem Ready.after_echo {k : Nat} {io : Mmio} (bs : List Nat)
    (h : Ready (k + bs.length) io) : Ready k (after_echo io bs) := by
  obtain ⟨h1, h2, h3, h4⟩ := h
  refine ⟨?_, ?_, ?_, ?_⟩
  · simp only [MachV.after_echo, List.length_drop]; omega
  · simp only [MachV.after_echo, List.length_drop]; omega
  · intro v hv; exact h3 v (List.mem_of_mem_drop hv)
  · intro v hv; exact h4 v (List.mem_of_mem_drop hv)

/-- One receive-and-echo step on a ready register file. -/
theorem echo_step (io : Mmio) (d : Nat) (ds : List Nat) (hr : Ready 1 io)
    (hd : io.rx_data = d :: ds) (hlt : d < 2 ^ 8) :
    ∃ io1, uart_read_byte io = some (d, io1) ∧
      uart_write_byte d io1 = some (after_echo io [d]) := by
  obtain ⟨h1, h2, h3, h4⟩ := hr
  obtain ⟨rv, rd, tr, trace⟩ := io
  simp only at hd h1 h2 h3 h4
  subst hd
  cases rv with
  | nil => simp at h1
  | cons v vs =>
    cases tr with
    | nil => simp at h2
    | cons t ts =>
      have hv : v &&& 1 ≠ 0 := h3 v (List.mem_cons_self _ _)
      have ht : t &&& 1 ≠ 0 := h4 t (List.mem_cons_self _ _)
      refine ⟨⟨vs, ds, t :: ts, trace ++ [Event.rx d]⟩, ?_, ?_⟩
      · simp only [uart_read_byte, poll_cons_ready v vs hv, Nat.mod_eq_of_lt hlt]
      · simp only [uart_write_byte, poll_cons_ready t ts ht, Nat.mod_eq_of_lt hlt, after_echo,
          echo_events, List.length_singleton, List.drop_one, List.tail_cons, List.append_assoc,
          List.singleton_append]

/-- The accumulator update `(result << 8) | byte` of `read_operand`. -/
theorem shift_or_byte (r y : Nat) (hr : r < 2 ^ 24) (hy : y < 2 ^ 8) :
    ((r <<< 8) % 2 ^ 32) ||| y = r * 2 ^ 8 + y := by
  have h1 : (r <<< 8) % 2 ^ 32 = 2 ^ 8 * r := by
    rw [Nat.shiftLeft_eq, Nat.mod_eq_of_lt (by omega)]; ring
  rw [h1, ← Nat.mul_add_lt_is_or hy]; ring

/-- Reading `k` more bytes on a ready register file. -/
theorem read_operand_loop_ready (bs : List Nat) :
    ∀ (io : Mmio) (acc : Nat) (rest : List Nat), Ready bs.length io →
      io.rx_data = bs ++ rest → (∀ x ∈ bs, x < 2 ^ 8) →
      read_operand_loop bs.length acc io =
        some (bs.foldl (fun r x => ((r <<< 8) % 2 ^ 32) ||| x) acc, after_echo io bs) := by
  induction bs with
  | nil => intro io acc rest _ _ _; simp [read_operand_loop, after_echo_nil]
  | cons b bs ih =>
    intro io acc rest hr hd hlt
    have hb : b < 2 ^ 8 := hlt b (List.mem_cons_self _ _)
    obtain ⟨io1, hread, hwrite⟩ :=
      echo_step io b (bs ++ rest) (hr.mono (by simp)) (by simpa using hd) hb
    have hr' : Ready bs.length (after_echo io [b]) :=
      Ready.after_echo [b] (by simpa using hr)
    have hd' : (after_echo io [b]).rx_data = bs ++ rest := by
      simp [after_echo, hd]
    have := ih (after_echo io [b]) (((acc <<< 8) % 2 ^ 32) ||| b) rest hr' hd'
      (fun x hx => hlt x (List.mem_cons_of_mem _ hx))
    simp only [List.length_cons, read_operand_loop, hread, hwrite, this, after_echo_append,
      List.foldl_cons, List.singleton_append]

theorem read_operand_ready (io : Mmio) (x0 x1 x2 x3 : Nat) (rest : List Nat)
    (hr : Ready 4 io) (hd : io.rx_data = [x0, x1, x2, x3] ++ rest)
    (hlt : ∀ x ∈ [x0, x1, x2, x3], x < 2 ^ 8) :
    read_operand io = some (be32 x0 x1 x2 x3, after_echo io [x0, x1, x2, x3]) := by
  have h := read_operand_loop_ready [x0, x1, x2, x3] io 0 rest hr hd hlt
  have h0 : x0 < 2 ^ 8 := hlt x0 (by simp)
  have h1 : x1 < 2 ^ 8 := hlt x1 (by simp)
  have h2 : x2 < 2 ^ 8 := hlt x2 (by simp)
  have h3 : x3 < 2 ^ 8 := hlt x3 (by simp)
  have e0 : ((0 <<< 8) % 2 ^ 32) ||| x0 = x0 := by simp
  have e1 := shift_or_byte x0 x1 (by omega) h1
  have e2 := shift_or_byte (x0 * 2 ^ 8 + x1) x2 (by omega) h2
  have e3 := shift_or_byte ((x0 * 2 ^ 8 + x1) * 2 ^ 8 + x2) x3 (by omega) h3
  have hfold : [x0, x1, x2, x3].foldl (fun r x => ((r <<< 8) % 2 ^ 32) ||| x) 0 =
      be32 x0 x1 x2 x3 := by
    simp only [List.foldl_cons, List.foldl_nil, e0, e1, e2, e3, be32]
    ring
  rw [read_operand, show (4 : Nat) = [x0, x1, x2, x3].length from rfl, h, hfold]

/-- One pass of the main loop on a ready register file. -/
theorem main_body_ready (m : Mem) (io : Mmio) (c a0 a1 a2 a3 b0 b1 b2 b3 : Nat)
    (rest : List Nat) (hr : Ready 9 io)
    (hd : io.rx_data = [c, a0, a1, a2, a3, b0, b1, b2, b3] ++ rest)
    (hlt : ∀ x ∈ [c, a0, a1, a2, a3, b0, b1, b2, b3], x < 2 ^ 8) :
    main_body m io =
      (dispatch c (be32 a0 a1 a2 a3) (be32 b0 b1 b2 b3) m).map fun r =>
        (r.2, after_transaction io [c, a0, a1, a2, a3, b0, b1, b2, b3] r.1) := by
  obtain ⟨io1, hread, hwrite⟩ :=
    echo_step io c ([a0, a1, a2, a3, b0, b1, b2, b3] ++ rest) (hr.mono (by omega))
      (by simpa using hd) (hlt c (by simp))
  have hr1 : Ready 8 (after_echo io [c]) := Ready.after_echo [c] hr
  have hd1 : (after_echo io [c]).rx_data = [a0, a1, a2, a3] ++ ([b0, b1, b2, b3] ++ rest) := by
    simp [after_echo, hd]
  have hA := read_operand_ready (after_echo io [c]) a0 a1 a2 a3 _ (hr1.mono (by omega)) hd1
    (fun x hx => hlt x (by simp at hx ⊢; tauto))
  rw [after_echo_append] at hA
  have hr2 : Ready 4 (after_echo io [c, a0, a1, a2, a3]) :=
    Ready.after_echo [c, a0, a1, a2, a3] hr
  have hd2 : (after_echo io [c, a0, a1, a2, a3]).rx_data = [b0, b1, b2, b3] ++ rest := by
    simp [after_echo, hd]
  have hB := read_operand_ready (after_echo io [c, a0, a1, a2, a3]) b0 b1 b2 b3 _ hr2 hd2
    (fun x hx => hlt x (by simp at hx ⊢; tauto))
  rw [after_echo_append] at hB
  simp only [List.singleton_append, List.cons_append, List.nil_append] at hA hB
  simp only [main_body, hread, hwrite, hA, hB]
  cases dispatch c (be32 a0 a1 a2 a3) (be32 b0 b1 b2 b3) m with
  | none => rfl
  | some r => rfl

theorem exists_nine_bytes (l : List Nat) (h : 9 ≤ l.length) :
    ∃ c a0 a1 a2 a3 b0 b1 b2 b3 tl, l = [c, a0, a1, a2, a3, b0, b1, b2, b3] ++ tl := by
  match l, h with
  | c :: a0 :: a1 :: a2 :: a3 :: b0 :: b1 :: b2 :: b3 :: tl, _ =>
    exact ⟨c, a0, a1, a2, a3, b0, b1, b2, b3, tl, rfl⟩

/-! ## Register handshake when polls may wait -/

theorem poll_ready_count (l : List Nat) :
    ∀ l', poll l = some l' → ready_count l' + 1 = ready_count l := by
  induction l with
  | nil => intro l' h; simp [poll] at h
  | cons v vs ih =>
    intro l' h
    by_cases hv : v &&& 1 = 0
    · rw [poll, if_pos hv] at h
      rw [ready_count, if_pos hv]
      exact ih l' h
    · rw [poll, if_neg hv] at h
      rw [ready_count, if_neg hv]
      cases h
      rfl

theorem poll_of_pos (l : List Nat) : 0 < ready_count l → ∃ l', poll l = some l' := by
  induction l with
  | nil => intro h; simp [ready_count] at h
  | cons v vs ih =>
    intro h
    by_cases hv : v &&& 1 = 0
    · rw [ready_count, if_pos hv] at h
      rw [poll, if_pos hv]
      exact ih h
    · rw [poll, if_neg hv]
      exact ⟨vs, rfl⟩

theorem uart_read_byte_count (io io1 : Mmio) (b : Nat) (h : uart_read_byte io = some (b, io1)) :
    ready_count io1.rx_valid + 1 = ready_count io.rx_valid ∧ io1.tx_ready = io.tx_ready := by
  unfold uart_read_byte at h
  cases hp : poll io.rx_valid with
  | none => rw [hp] at h; simp at h
  | some rv =>
    rw [hp] at h
    cases hd : io.rx_data with
    | nil => rw [hd] at h; simp at h
    | cons d ds =>
      rw [hd] at h
      simp only [Option.some.injEq, Prod.mk.injEq] at h
      obtain ⟨-, rfl⟩ := h
      exact ⟨poll_ready_count _ _ hp, rfl⟩

theorem uart_write_byte_count (io io1 : Mmio) (c : Nat) (h : uart_write_byte c io = some io1) :
    ready_count io1.tx_ready + 1 = ready_count io.tx_ready ∧ io1.rx_valid = io.rx_valid := by
  unfold uart_write_byte at h
  cases hp : poll io.tx_ready with
  | none => rw [hp] at h; simp at h
  | some tr =>
    rw [hp] at h
    simp only [Option.some.injEq] at h
    subst h
    exact ⟨poll_ready_count _ _ hp, rfl⟩

/-- One receive-and-echo step when each status register will still show ready once. -/
theorem echo_step_live (io : Mmio) (d : Nat) (ds : List Nat) (hl : Live 1 io)
    (hd : io.rx_data = d :: ds) (hlt : d < 2 ^ 8) :
    ∃ io1 io2, uart_read_byte io = some (d, io1) ∧ uart_write_byte d io1 = some io2 ∧
      io2.rx_data = ds ∧ io2.trace = io.trace ++ [Event.rx d, Event.tx d] ∧
      ready_count io2.rx_valid + 1 = ready_count io.rx_valid ∧
      ready_count io2.tx_ready + 1 = ready_count io.tx_ready := by
  obtain ⟨rv, hrv⟩ := poll_of_pos io.rx_valid hl.1
  obtain ⟨tr, htr⟩ := poll_of_pos io.tx_ready hl.2
  refine ⟨{ io with rx_valid := rv, rx_data := ds, trace := io.trace ++ [Event.rx d] },
    { rx_valid := rv, rx_data := ds, tx_ready := tr,
      trace := io.trace ++ [Event.rx d, Event.tx d] }, ?_, ?_, rfl, rfl,
    poll_ready_count _ _ hrv, poll_ready_count _ _ htr⟩
  · simp only [uart_read_byte, hrv, hd, Nat.mod_eq_of_lt hlt]
  · simp only [uart_write_byte, htr, Nat.mod_eq_of_lt hlt, List.append_assoc,
      List.singleton_append]

/-- Reading the bytes `bs` when each status register will still show ready often enough:
whatever the number of polls, the loop returns with the bytes echoed in order. -/
theorem read_operand_loop_live (bs : List Nat) :
    ∀ (io : Mmio) (acc : Nat) (rest : List Nat), Live bs.length io →
      io.rx_data = bs ++ rest → (∀ x ∈ bs, x < 2 ^ 8) →
      ∃ io1, read_operand_loop bs.length acc io =
          some (bs.foldl (fun r x => ((r <<< 8) % 2 ^ 32) ||| x) acc, io1) ∧
        io1.rx_data = rest ∧ io1.trace = io.trace ++ echo_events bs ∧
        ready_count io1.rx_valid + bs.length = ready_count io.rx_valid ∧
        ready_count io1.tx_ready + bs.length = ready_count io.tx_ready := by
  induction bs with
  | nil =>
    intro io acc rest _ hd _
    exact ⟨io, rfl, by simpa using hd, by simp [echo_events], rfl, rfl⟩
  | cons b bs ih =>
    intro io acc rest hl hd hlt
    have hb : b < 2 ^ 8 := hlt b (List.mem_cons_self _ _)
    have hl1 : Live 1 io := ⟨le_trans (by simp) hl.1, le_trans (by simp) hl.2⟩
    obtain ⟨io1, io2, hread, hwrite, hd2, ht2, hrx, htx⟩ :=
      echo_step_live io b (bs ++ rest) hl1 (by simpa using hd) hb
    have hl2 : Live bs.length io2 := by
      have h1 := hl.1
      have h2 := hl.2
      simp only [List.length_cons] at h1 h2
      exact ⟨by omega, by omega⟩
    obtain ⟨io3, hloop, hd3, ht3, hrx3, htx3⟩ :=
      ih io2 (((acc <<< 8) % 2 ^ 32) ||| b) rest hl2 hd2
        (fun x hx => hlt x (List.mem_cons_of_mem _ hx))
    refine ⟨io3, ?_, hd3, ?_, ?_, ?_⟩
    · simp only [List.length_cons, read_operand_loop, hread, hwrite, hloop, List.foldl_cons]
    · rw [ht3, ht2]; simp [echo_events]
    · simp only [List.length_cons]; omega
    · simp only [List.length_cons]; omega

theorem be32_foldl (x0 x1 x2 x3 : Nat) (hlt : ∀ x ∈ [x0, x1, x2, x3], x < 2 ^ 8) :
    [x0, x1, x2, x3].foldl (fun r x => ((r <<< 8) % 2 ^ 32) ||| x) 0 = be32 x0 x1 x2 x3 := by
  have h0 : x0 < 2 ^ 8 := hlt x0 (by simp)
  have h1 : x1 < 2 ^ 8 := hlt x1 (by simp)
  have h2 : x2 < 2 ^ 8 := hlt x2 (by simp)
  have h3 : x3 < 2 ^ 8 := hlt x3 (by simp)
  have e0 : ((0 <<< 8) % 2 ^ 32) ||| x0 = x0 := by simp
  have e1 := shift_or_byte x0 x1 (by omega) h1
  have e2 := shift_or_byte (x0 * 2 ^ 8 + x1) x2 (by omega) h2
  have e3 := shift_or_byte ((x0 * 2 ^ 8 + x1) * 2 ^ 8 + x2) x3 (by omega) h3
  simp only [List.foldl_cons, List.foldl_nil, e0, e1, e2, e3, be32]
  ring

theorem read_operand_live (io : Mmio) (x0 x1 x2 x3 : Nat) (rest : List Nat)
    (hl : Live 4 io) (hd : io.rx_data = [x0, x1, x2, x3] ++ rest)
    (hlt : ∀ x ∈ [x0, x1, x2, x3], x < 2 ^ 8) :
    ∃ io1, read_operand io = some (be32 x0 x1 x2 x3, io1) ∧
      io1.rx_data = rest ∧ io1.trace = io.trace ++ echo_events [x0, x1, x2, x3] ∧
      ready_count io1.rx_valid + 4 = ready_count io.rx_valid ∧
      ready_count io1.tx_ready + 4 = ready_count io.tx_ready := by
  obtain ⟨io1, h, hd1, ht1, hrx, htx⟩ :=
    read_operand_loop_live [x0, x1, x2, x3] io 0 rest hl hd hlt
  rw [be32_foldl x0 x1 x2 x3 hlt] at h
  exact ⟨io1, h, hd1, ht1, hrx, htx⟩

/-- One pass of the main loop when each status register will still show ready nine times. -/
theorem main_body_live (m : Mem) (io : Mmio) (c a0 a1 a2 a3 b0 b1 b2 b3 : Nat)
    (rest : List Nat) (hl : Live 9 io)
    (hd : io.rx_data = [c, a0, a1, a2, a3, b0, b1, b2, b3] ++ rest)
    (hlt : ∀ x ∈ [c, a0, a1, a2, a3, b0, b1, b2, b3], x < 2 ^ 8) :
    ∃ t4 m1 io1, dispatch c (be32 a0 a1 a2 a3) (be32 b0 b1 b2 b3) m = some (t4, m1) ∧
      main_body m io = some (m1, io1) ∧ io1.rx_data = rest ∧
      io1.trace = io.trace ++ echo_events [c, a0, a1, a2, a3, b0, b1, b2, b3] ++
        [Event.sevenseg t4] ∧
      ready_count io1.rx_valid + 9 = ready_count io.rx_valid ∧
      ready_count io1.tx_ready + 9 = ready_count io.tx_ready := by
  have hl1 : Live 1 io := ⟨le_trans (by norm_num) hl.1, le_trans (by norm_num) hl.2⟩
  obtain ⟨io1, io2, hread, hwrite, hd2, ht2, hrx2, htx2⟩ :=
    echo_step_live io c ([a0, a1, a2, a3, b0, b1, b2, b3] ++ rest) hl1 (by simpa using hd)
      (hlt c (by simp))
  have hl2 : Live 4 io2 := ⟨by have := hl.1; omega, by have := hl.2; omega⟩
  obtain ⟨io3, hA, hd3, ht3, hrx3, htx3⟩ :=
    read_operand_live io2 a0 a1 a2 a3 ([b0, b1, b2, b3] ++ rest) hl2 (by simpa using hd2)
      (fun x hx => hlt x (by simp at hx ⊢; tauto))
  have hl3 : Live 4 io3 := ⟨by have := hl.1; omega, by have := hl.2; omega⟩
  obtain ⟨io4, hB, hd4, ht4, hrx4, htx4⟩ :=
    read_operand_live io3 b0 b1 b2 b3 rest hl3 hd3
      (fun x hx => hlt x (by simp at hx ⊢; tauto))
  obtain ⟨t4, m1, hdisp⟩ := dispatch_total c (be32 a0 a1 a2 a3) (be32 b0 b1 b2 b3) m
  refine ⟨t4, m1, { io4 with trace := io4.trace ++ [Event.sevenseg t4] }, hdisp, ?_, hd4, ?_,
    by show ready_count io4.rx_valid + 9 = _; omega,
    by show ready_count io4.tx_ready + 9 = _; omega⟩
  · simp only [main_body, hread, hwrite, hA, hB, hdisp]
  · show io4.trace ++ [Event.sevenseg t4] = _
    rw [ht4, ht3, ht2]
    simp [echo_events]

theorem read_operand_loop_count (k : Nat) :
    ∀ (acc : Nat) (io io1 : Mmio) (v : Nat), read_operand_loop k acc io = some (v, io1) →
      ready_count io1.rx_valid + k = ready_count io.rx_valid ∧
      ready_count io1.tx_ready + k = ready_count io.tx_ready := by
  induction k with
  | zero =>
    intro acc io io1 v h
    simp only [read_operand_loop, Option.some.injEq, Prod.mk.injEq] at h
    obtain ⟨-, rfl⟩ := h
    exact ⟨rfl, rfl⟩
  | succ k ih =>
    intro acc io io1 v h
    rw [read_operand_loop] at h
    cases hr : uart_read_byte io with
    | none => rw [hr] at h; simp at h
    | some p =>
      obtain ⟨byte, ioa⟩ := p
      rw [hr] at h
      simp only at h
      cases hw : uart_write_byte byte ioa with
      | none => rw [hw] at h; simp at h
      | some iob =>
        rw [hw] at h
        simp only at h
        obtain ⟨h1, h2⟩ := uart_read_byte_count io ioa byte hr
        obtain ⟨h3, h4⟩ := uart_write_byte_count ioa iob byte hw
        obtain ⟨h5, h6⟩ := ih _ iob io1 v h
        rw [h4] at h5
        rw [h2] at h3
        exact ⟨by omega, by omega⟩

/-- A pass of the main loop that completes has seen each status register ready nine times. -/
theorem main_body_count (m m1 : Mem) (io io1 : Mmio) (h : main_body m io = some (m1, io1)) :
    ready_count io1.rx_valid + 9 = ready_count io.rx_valid ∧
    ready_count io1.tx_ready + 9 = ready_count io.tx_ready := by
  unfold main_body at h
  cases hr : uart_read_byte io with
  | none => rw [hr] at h; simp at h
  | some p =>
    obtain ⟨cmd, ioa⟩ := p
    rw [hr] at h
    simp only at h
    cases hw : uart_write_byte cmd ioa with
    | none => rw [hw] at h; simp at h
    | some iob =>
      rw [hw] at h
      simp only at h
      cases hA : read_operand iob with
      | none => rw [hA] at h; simp at h
      | some pa =>
        obtain ⟨s10, ioc⟩ := pa
        rw [hA] at h
        simp only at h
        cases hB : read_operand ioc with
        | none => rw [hB] at h; simp at h
        | some pb =>
          obtain ⟨s11, iod⟩ := pb
          rw [hB] at h
          simp only at h
          cases hD : dispatch cmd s10 s11 m with
          | none => rw [hD] at h; simp at h
          | some pd =>
            obtain ⟨t4, m2⟩ := pd
            rw [hD] at h
            simp only [Option.some.injEq, Prod.mk.injEq] at h
            obtain ⟨-, rfl⟩ := h
            obtain ⟨h1, h2⟩ := uart_read_byte_count io ioa cmd hr
            obtain ⟨h3, h4⟩ := uart_write_byte_count ioa iob cmd hw
            obtain ⟨h5, h6⟩ := read_operand_loop_count 4 0 iob ioc s10 hA
            obtain ⟨h7, h8⟩ := read_operand_loop_count 4 0 ioc iod s11 hB
            rw [h4] at h5
            rw [h2] at h3
            exact ⟨by show ready_count iod.rx_valid + 9 = _; omega,
              by show ready_count iod.tx_ready + 9 = _; omega⟩

/-- The first `n` passes of the main loop complete only if each status register shows ready
at least `9 * n` times. -/
theorem main_count (n : Nat) :
    ∀ (m m1 : Mem) (io io1 : Mmio), main n m io = some (m1, io1) →
      ready_count io1.rx_valid + 9 * n = ready_count io.rx_valid ∧
      ready_count io1.tx_ready + 9 * n = ready_count io.tx_ready := by
  induction n with
  | zero =>
    intro m m1 io io1 h
    simp only [main, Option.some.injEq, Prod.mk.injEq] at h
    obtain ⟨-, rfl⟩ := h
    exact ⟨rfl, rfl⟩
  | succ n ih =>
    intro m m1 io io1 h
    rw [main] at h
    cases hb : main_body m io with
    | none => rw [hb] at h; simp at h
    | some p =>
      obtain ⟨m2, io2⟩ := p
      rw [hb] at h
      simp only at h
      obtain ⟨h1, h2⟩ := main_body_count m m2 io io2 hb
      obtain ⟨h3, h4⟩ := ih m2 m1 io2 io1 h
      exact ⟨by omega, by omega⟩

/-- The first `n` passes of the main loop when each status register will still show ready
`9 * n` times and the bytes `input` arrive, nine per pass. -/
theorem main_live (n : Nat) :
    ∀ (input rest : List Nat) (m : Mem) (io : Mmio), input.length = 9 * n →
      (∀ x ∈ input, x < 2 ^ 8) → Live (9 * n) io → io.rx_data = input ++ rest →
      ∃ m1 io1, main n m io = some (m1, io1) ∧
        tx_bytes io1.trace = tx_bytes io.trace ++ input ∧
        rx_bytes io1.trace = rx_bytes io.trace ++ input ∧
        (sevenseg_writes io1.trace).length = (sevenseg_writes io.trace).length + n ∧
        io1.rx_data = rest := by
  induction n with
  | zero =>
    intro input rest m io hlen _ _ hd
    have hnil : input = [] := List.length_eq_zero.mp (by simpa using hlen)
    subst hnil
    exact ⟨m, io, rfl, by simp, by simp, by simp, by simpa using hd⟩
  | succ n ih =>
    intro input rest m io hlen hlt hl hd
    obtain ⟨c, a0, a1, a2, a3, b0, b1, b2, b3, tl, htl⟩ :=
      exists_nine_bytes input (by omega)
    subst htl
    have hlen' : tl.length = 9 * n := by
      simp only [List.length_append, List.length_cons, List.length_nil] at hlen; omega
    have hlt9 : ∀ x ∈ [c, a0, a1, a2, a3, b0, b1, b2, b3], x < 2 ^ 8 :=
      fun x hx => hlt x (List.mem_append_left _ hx)
    have hl9 : Live 9 io := ⟨by have := hl.1; omega, by have := hl.2; omega⟩
    obtain ⟨t4, m1, io1, -, hbody, hd1, ht1, hrx1, htx1⟩ :=
      main_body_live m io c a0 a1 a2 a3 b0 b1 b2 b3 (tl ++ rest) hl9 (by simpa using hd) hlt9
    have hl' : Live (9 * n) io1 := ⟨by have := hl.1; omega, by have := hl.2; omega⟩
    obtain ⟨m2, io2, hmain, htx, hrx, hss, hrest⟩ :=
      ih tl rest m1 io1 hlen' (fun x hx => hlt x (List.mem_append_right _ hx)) hl' hd1
    refine ⟨m2, io2, ?_, ?_, ?_, ?_, hrest⟩
    · simp only [main, hbody, hmain]
    · rw [htx, ht1]
      simp [tx_bytes_append, tx_bytes_echo_events, tx_bytes]
    · rw [hrx, ht1]
      simp [rx_bytes_append, rx_bytes_echo_events, rx_bytes]
    · rw [hss, ht1]
      simp [sevenseg_writes_append, sevenseg_writes_echo_events, sevenseg_writes]
      omega

/-! ## Machine arithmetic -/

theorem u32_cast (z : Int) : ((u32 z : Nat) : Int) = z % 2 ^ 32 := by
  unfold u32
  exact Int.toNat_of_nonneg (Int.emod_nonneg z (by norm_num))

theorem u32_lt (z : Int) : u32 z < 2 ^ 32 := by
  have h := u32_cast z
  have := Int.emod_lt_of_pos z (show (0 : Int) < 2 ^ 32 by norm_num)
  omega

theorem i32_bounds (x : Nat) (hx : x < 2 ^ 32) : -2 ^ 31 ≤ i32 x ∧ i32 x < 2 ^ 31 := by
  unfold i32
  norm_num at hx ⊢
  by_cases h : x < 2147483648
  · rw [if_pos h]; omega
  · rw [if_neg h]; omega

theorem i32_ne_zero (b : Nat) (hb : b < 2 ^ 32) (h0 : b ≠ 0) : i32 b ≠ 0 := by
  unfold i32
  norm_num at hb ⊢
  by_cases h : b < 2147483648
  · rw [if_pos h]; omega
  · rw [if_neg h]; omega

theorem i32_modEq (x : Nat) : i32 x ≡ (x : Int) [ZMOD 2 ^ 32] := by
  unfold i32
  split
  · exact Int.ModEq.refl _
  · exact (Int.modEq_iff_dvd.mpr ⟨1, by ring⟩)

theorem u32_modEq (z : Int) : ((u32 z : Nat) : Int) ≡ z [ZMOD 2 ^ 32] := by
  rw [u32_cast]
  exact Int.mod_modEq z _

theorem i32_u32 (z : Int) (h1 : -2 ^ 31 ≤ z) (h2 : z < 2 ^ 31) : i32 (u32 z) = z := by
  have hc := u32_cast z
  unfold i32
  norm_num at h1 h2 hc ⊢
  by_cases h : u32 z < 2147483648
  · rw [if_pos h]; omega
  · rw [if_neg h]; omega

/-- A natural number congruent modulo 2^32 to a 32-bit value reduces to it. -/
theorem mod_eq_of_modEq (n a : Nat) (ha : a < 2 ^ 32)
    (h : (n : Int) ≡ (a : Int) [ZMOD 2 ^ 32]) : n % 2 ^ 32 = a := by
  have h' : (n : Int) % 2 ^ 32 = (a : Int) % 2 ^ 32 := h
  norm_num at ha h'
  omega

theorem mul_lt_two_pow_64 (a b : Nat) (ha : a < 2 ^ 32) (hb : b < 2 ^ 32) :
    a * b < 2 ^ 64 := by
  have h : a * b < 2 ^ 32 * 2 ^ 32 := Nat.mul_lt_mul'' ha hb
  calc a * b < 2 ^ 32 * 2 ^ 32 := h
    _ = 2 ^ 64 := by norm_num

theorem i32_mul_bounds (a b : Nat) (ha : a < 2 ^ 32) (hb : b < 2 ^ 32) :
    -2 ^ 62 ≤ i32 a * i32 b ∧ i32 a * i32 b ≤ 2 ^ 62 := by
  obtain ⟨ha1, ha2⟩ := i32_bounds a ha
  obtain ⟨hb1, hb2⟩ := i32_bounds b hb
  generalize i32 a = x at ha1 ha2 ⊢
  generalize i32 b = y at hb1 hb2 ⊢
  constructor
  · nlinarith [mul_nonneg (show (0 : Int) ≤ x + 2 ^ 31 by linarith)
      (show (0 : Int) ≤ y + 2 ^ 31 by linarith),
      mul_nonneg (show (0 : Int) ≤ 2 ^ 31 - x by linarith)
      (show (0 : Int) ≤ 2 ^ 31 - y by linarith)]
  · nlinarith [mul_nonneg (show (0 : Int) ≤ x + 2 ^ 31 by linarith)
      (show (0 : Int) ≤ 2 ^ 31 - y by linarith),
      mul_nonneg (show (0 : Int) ≤ 2 ^ 31 - x by linarith)
      (show (0 : Int) ≤ y + 2 ^ 31 by linarith)]

/-- The shift `>> 32` of a 64-bit signed product is the floor of the division by 2^32. -/
theorem shiftRight_32_eq_div (p : Int) : p >>> (32 : Int) = p / 2 ^ 32 := by
  have h : p >>> ((32 : Nat) : Int) = p >>> (32 : Nat) := by
    cases p with
    | ofNat m => exact Int.shiftRight_coe_nat m 32
    | negSucc m => exact Int.shiftRight_negSucc m 32
  have h2 := Int.shiftRight_eq_div_pow p 32
  rw [h2] at h
  rw [show ((32 : Nat) : Int) = 32 from rfl] at h
  rw [h]
  norm_num

theorem sra_nonneg (a n : Nat) (h : a < 2 ^ 31) : u32 (i32 a >>> n) = a >>> n := by
  have hi : i32 a = (a : Int) := by unfold i32; rw [if_pos h]
  have hs : (a : Int) >>> n = ((a >>> n : Nat) : Int) := rfl
  have hle : a >>> n ≤ a := by
    rw [Nat.shiftRight_eq_div_pow]; exact Nat.div_le_self _ _
  rw [hi, hs]
  generalize a >>> n = s at hle
  have hc := u32_cast (s : Int)
  norm_num at h hc
  omega

theorem sra_negative (a n : Nat) (ha : a < 2 ^ 32) (hn : n ≤ 31) (h31 : 2 ^ 31 ≤ a) :
    u32 (i32 a >>> n) >>> (31 - n) = 2 ^ (n + 1) - 1 := by
  have hi : i32 a = (a : Int) - 2 ^ 32 := by
    unfold i32; rw [if_neg (by omega)]
  have hc := u32_cast (i32 a >>> n)
  generalize u32 (i32 a >>> n) = r at hc ⊢
  rw [Int.shiftRight_eq_div_pow, hi] at hc
  rw [Nat.shiftRight_eq_div_pow]
  interval_cases n <;> norm_num at ha h31 hc ⊢ <;> omega

/-- Truncated remainder: smaller in magnitude than the divisor, with the sign of the
dividend. -/
theorem tmod_bounds (x y : Int) (hy : y ≠ 0) :
    |x.tmod y| < |y| ∧ (0 ≤ x → 0 ≤ x.tmod y) ∧ (x ≤ 0 → x.tmod y ≤ 0) := by
  have habs : |x.tmod y| < |y| := by
    rcases x with m | m <;> rcases y with n | n
    · have hn : n ≠ 0 := by rintro rfl; exact hy rfl
      have := Nat.mod_lt m (Nat.pos_of_ne_zero hn)
      simp only [Int.tmod, Int.ofNat_eq_coe]
      rw [abs_of_nonneg (by positivity), abs_of_nonneg (by positivity)]
      exact_mod_cast this
    · have := Nat.mod_lt m (Nat.succ_pos n)
      simp only [Int.tmod, Int.ofNat_eq_coe]
      rw [abs_of_nonneg (by positivity), Int.negSucc_eq, abs_neg,
        abs_of_nonneg (by positivity)]
      exact_mod_cast this
    · have hn : n ≠ 0 := by rintro rfl; exact hy rfl
      have := Nat.mod_lt (m + 1) (Nat.pos_of_ne_zero hn)
      simp only [Int.tmod, Int.ofNat_eq_coe]
      rw [abs_neg, abs_of_nonneg (by positivity), abs_of_nonneg (by positivity)]
      exact_mod_cast this
    · have := Nat.mod_lt (m + 1) (Nat.succ_pos n)
      simp only [Int.tmod, Int.ofNat_eq_coe]
      rw [abs_neg, abs_of_nonneg (by positivity), Int.negSucc_eq, abs_neg,
        abs_of_nonneg (by positivity)]
      exact_mod_cast this
  refine ⟨habs, fun hx => Int.tmod_nonneg y hx, fun hx => ?_⟩
  rcases x with m | m
  · have hm : m = 0 := by
      have : (m : Int) ≤ 0 := hx
      omega
    subst hm
    simp
  · rcases y with n | n
    · simp only [Int.tmod, Int.ofNat_eq_coe]
      exact Int.neg_nonpos_of_nonneg (Int.ofNat_nonneg _)
    · simp only [Int.tmod, Int.ofNat_eq_coe]
      exact Int.neg_nonpos_of_nonneg (Int.ofNat_nonneg _)

theorem tdiv_bounds (x y : Int) (hx1 : -2 ^ 31 ≤ x) (hx2 : x < 2 ^ 31) (hy : y ≠ 0) :
    -2 ^ 31 ≤ x.tdiv y ∧ x.tdiv y ≤ 2 ^ 31 ∧ (x.tdiv y = 2 ^ 31 → x = -2 ^ 31 ∧ y = -1) := by
  have hn : (x.tdiv y).natAbs = x.natAbs / y.natAbs := Int.natAbs_tdiv x y
  have hle : x.natAbs / y.natAbs ≤ x.natAbs := Nat.div_le_self _ _
  norm_num at hx1 hx2 ⊢
  refine ⟨by omega, by omega, fun hq => ?_⟩
  have hx : x = -2147483648 := by omega
  have hy1 : y.natAbs = 1 := by
    by_contra hne
    have h2 : 2 ≤ y.natAbs := by omega
    have : x.natAbs / y.natAbs ≤ x.natAbs / 2 := Nat.div_le_div_left h2 (by norm_num)
    omega
  refine ⟨hx, ?_⟩
  rcases Int.natAbs_eq y with h | h
  · rw [hy1] at h
    rw [h, hx] at hq
    norm_num at hq
  · rw [hy1] at h
    simpa using h

/-- The signed quotient fits `int32_t` except for INT_MIN / -1. -/
theorem tdiv_fits (a b : Nat) (ha : a < 2 ^ 32) (hb : b < 2 ^ 32) (h0 : b ≠ 0)
    (hne : ¬ (a = 0x80000000 ∧ b = 0xFFFFFFFF)) :
    -2 ^ 31 ≤ (i32 a).tdiv (i32 b) ∧ (i32 a).tdiv (i32 b) < 2 ^ 31 := by
  obtain ⟨ha1, ha2⟩ := i32_bounds a ha
  obtain ⟨h1, h2, h3⟩ := tdiv_bounds (i32 a) (i32 b) ha1 ha2 (i32_ne_zero b hb h0)
  refine ⟨h1, ?_⟩
  by_contra hge
  have hq : (i32 a).tdiv (i32 b) = 2 ^ 31 := by omega
  obtain ⟨hx, hy⟩ := h3 hq
  apply hne
  unfold i32 at hx hy
  norm_num at ha hb hx hy ⊢
  constructor
  · by_cases h : a < 2147483648
    · rw [if_pos h] at hx; omega
    · rw [if_neg h] at hx; omega
  · by_cases h : b < 2147483648
    · rw [if_pos h] at hy; omega
    · rw [if_neg h] at hy; omega

/-! ## The switch, case by case (arithmetic and stores) -/

theorem dispatch_add (a b : Nat) (m : Mem) :
    dispatch 'a'.toNat a b m = some ((a + b) % 2 ^ 32, m) := by
  simp [dispatch]

theorem dispatch_sub (a b : Nat) (m : Mem) :
    dispatch 's'.toNat a b m = some (u32 ((a : Int) - (b : Int)), m) := by
  simp [dispatch]

theorem dispatch_mul (a b : Nat) (m : Mem) :
    dispatch 'm'.toNat a b m = some ((a * b) % 2 ^ 32, m) := by
  simp [dispatch]

theorem dispatch_mulh (a b : Nat) (m : Mem) :
    dispatch 'H'.toNat a b m = some (u32 ((i32 a * i32 b) >>> 32), m) := by
  simp [dispatch]

theorem dispatch_mulhu (a b : Nat) (m : Mem) :
    dispatch 'h'.toNat a b m = some ((((a * b) % 2 ^ 64) >>> 32) % 2 ^ 32, m) := by
  simp [dispatch]

theorem dispatch_div (a b : Nat) (m : Mem) :
    dispatch 'd'.toNat a b m =
      some (if b = 0 then 0xFFFFFFFF else u32 (Int.tdiv (i32 a) (i32 b)), m) := by
  simp [dispatch]

theorem dispatch_divu (a b : Nat) (m : Mem) :
    dispatch 'D'.toNat a b m = some (if b = 0 then 0xFFFFFFFF else a / b, m) := by
  simp [dispatch]

theorem dispatch_rem (a b : Nat) (m : Mem) :
    dispatch 'r'.toNat a b m =
      some (if b = 0 then 0xFFFFFFFF else u32 (Int.tmod (i32 a) (i32 b)), m) := by
  simp [dispatch]

theorem dispatch_remu (a b : Nat) (m : Mem) :
    dispatch 'M'.toNat a b m = some (if b = 0 then 0xFFFFFFFF else a % b, m) := by
  simp [dispatch]

theorem dispatch_sra (a b : Nat) (m : Mem) :
    dispatch 'A'.toNat a b m = some (u32 (i32 a >>> (b &&& 0x1F)), m) := by
  simp [dispatch]

theorem dispatch_srl (a b : Nat) (m : Mem) :
    dispatch 'R'.toNat a b m = some (a >>> (b &&& 0x1F), m) := by
  simp [dispatch]

theorem dispatch_sb_result (a b : Nat) (m : Mem) :
    dispatch '5'.toNat a b m =
      some ((b &&& 0xFF) <<< (8 * (a &&& 0x3)),
        { m with scratch_mem := fun _ => (b &&& 0xFF) <<< (8 * (a &&& 0x3)) }) := by
  rw [dispatch_sb, store_u8_cleared _ _ _ (and_mask_lt a 0x3) (and_255_lt b)]; rfl

theorem dispatch_sh_result (a b : Nat) (m : Mem) :
    dispatch '6'.toNat a b m =
      some ((b &&& 0xFFFF) <<< (8 * (a &&& 0x2)),
        { m with scratch_mem := fun _ => (b &&& 0xFFFF) <<< (8 * (a &&& 0x2)) }) := by
  have hoff : a &&& 0x2 ≤ 2 := Nat.and_le_right
  rw [dispatch_sh, store_u16_cleared _ _ _ hoff (and_65535_lt b)]; rfl

/-- A command other than the two stores returns the memory it was given. -/
theorem dispatch_keeps_mem (c a b : Nat) (m : Mem) (h5 : c ≠ '5'.toNat) (h6 : c ≠ '6'.toNat) :
    ∃ t4, dispatch c a b m = some (t4, m) := by
  by_cases hmem : c ∈ recognized
  · obtain ⟨val, hval⟩ := load_u16_test_data m.test_data a
    simp only [recognized, List.map, List.mem_cons, List.mem_singleton, List.not_mem_nil,
      or_false] at hmem
    rcases hmem with h | h | h | h | h | h | h | h | h | h | h | h | h | h | h | h | h | h |
      h | h | h | h | h | h | h | h | h <;> subst h
    all_goals first
      | exact absurd rfl h5
      | exact absurd rfl h6
      | exact ⟨_, by simp [dispatch]; rfl⟩
      | (rw [dispatch_lb, load_u8_test_data]; exact ⟨_, rfl⟩)
      | (rw [dispatch_lbu, load_u8_test_data]; exact ⟨_, rfl⟩)
      | (rw [dispatch_lh, hval]; exact ⟨_, rfl⟩)
      | (rw [dispatch_lhu, hval]; exact ⟨_, rfl⟩)
  · exact ⟨_, dispatch_unrecognized c hmem a b m⟩

/-- What the embedding computes for div ('d') and rem ('r') with a divisor other than 0: the
results satisfy the division identity modulo 2^32, the remainder is smaller in magnitude than
the divisor and is zero or has the sign of the dividend, and except for INT_MIN / -1 the
result of div is the quotient truncated toward zero. -/
theorem signed_div_rem_spec (a b : Nat) (m : Mem) (ha : a < 2 ^ 32) (hb : b < 2 ^ 32)
    (h0 : b ≠ 0) :
    ∃ q r, dispatch 'd'.toNat a b m = some (q, m) ∧ dispatch 'r'.toNat a b m = some (r, m) ∧
      (q * b + r) % 2 ^ 32 = a ∧
      |i32 r| < |i32 b| ∧
      (i32 r = 0 ∨ (0 < i32 r ∧ 0 < i32 a) ∨ (i32 r < 0 ∧ i32 a < 0)) ∧
      i32 r = Int.tmod (i32 a) (i32 b) ∧
      (¬ (a = 0x80000000 ∧ b = 0xFFFFFFFF) → i32 q = Int.tdiv (i32 a) (i32 b)) := by
  obtain ⟨hb1, hb2⟩ := i32_bounds b hb
  have hy : i32 b ≠ 0 := i32_ne_zero b hb h0
  obtain ⟨hR, hpos, hneg⟩ := tmod_bounds (i32 a) (i32 b) hy
  have hRfit : i32 (u32 ((i32 a).tmod (i32 b))) = (i32 a).tmod (i32 b) := by
    have h1 := abs_lt.mp hR
    have h2 : |i32 b| ≤ 2 ^ 31 := abs_le.mpr ⟨by linarith, by linarith⟩
    exact i32_u32 _ (by linarith [h1.1]) (by linarith [h1.2])
  refine ⟨u32 ((i32 a).tdiv (i32 b)), u32 ((i32 a).tmod (i32 b)),
    ?_, ?_, ?_, ?_, ?_, hRfit, ?_⟩
  · rw [dispatch_div, if_neg h0]
  · rw [dispatch_rem, if_neg h0]
  · apply mod_eq_of_modEq _ a ha
    push_cast
    have h1 : (u32 ((i32 a).tdiv (i32 b)) : Int) * (b : Int) + (u32 ((i32 a).tmod (i32 b)) : Int)
        ≡ (i32 a).tdiv (i32 b) * i32 b + (i32 a).tmod (i32 b) [ZMOD 2 ^ 32] :=
      ((u32_modEq _).mul (i32_modEq b).symm).add (u32_modEq _)
    rw [Int.tdiv_add_tmod'] at h1
    exact h1.trans (i32_modEq a)
  · rw [hRfit]; exact hR
  · rw [hRfit]
    rcases lt_trichotomy (i32 a) 0 with h | h | h
    · have := hneg (le_of_lt h)
      rcases eq_or_lt_of_le this with h' | h'
      · exact Or.inl h'
      · exact Or.inr (Or.inr ⟨h', h⟩)
    · left; rw [h]; simp
    · have := hpos (le_of_lt h)
      rcases eq_or_lt_of_le this with h' | h'
      · exact Or.inl h'.symm
      · exact Or.inr (Or.inl ⟨h', h⟩)
  · intro hne
    obtain ⟨h1, h2⟩ := tdiv_fits a b ha hb h0 hne
    exact i32_u32 _ h1 h2

/-! ## Properties of the calculator -/

/-- C1: when both status registers are ready at every poll and the next nine received bytes
are c, a0..a3, b0..b3, one pass of the main loop completes, writes the display register
exactly once, and the value written is the switch result for command c with left operand
a0*2^24 + a1*2^16 + a2*2^8 + a3 and right operand b0*2^24 + b1*2^16 + b2*2^8 + b3; for the
transaction 'a', 00 00 00 05, 00 00 00 03 that value is 8. -/
theorem C1_transaction_display (m : Mem) (io : Mmio) (c a0 a1 a2 a3 b0 b1 b2 b3 : Nat)
    (rest : List Nat) (hr : Ready 9 io)
    (hd : io.rx_data = [c, a0, a1, a2, a3, b0, b1, b2, b3] ++ rest)
    (hlt : ∀ x ∈ [c, a0, a1, a2, a3, b0, b1, b2, b3], x < 2 ^ 8) :
    ∃ t4 m1 io1,
      dispatch c (a0 * 2 ^ 24 + a1 * 2 ^ 16 + a2 * 2 ^ 8 + a3)
        (b0 * 2 ^ 24 + b1 * 2 ^ 16 + b2 * 2 ^ 8 + b3) m = some (t4, m1) ∧
      main_body m io = some (m1, io1) ∧
      sevenseg_writes io1.trace = sevenseg_writes io.trace ++ [t4] ∧
      ([c, a0, a1, a2, a3, b0, b1, b2, b3] = ['a'.toNat, 0, 0, 0, 5, 0, 0, 0, 3] → t4 = 8) := by
  obtain ⟨t4, m1, hdisp⟩ := dispatch_total c (be32 a0 a1 a2 a3) (be32 b0 b1 b2 b3) m
  have hbody := main_body_ready m io c a0 a1 a2 a3 b0 b1 b2 b3 rest hr hd hlt
  rw [hdisp] at hbody
  refine ⟨t4, m1, _, hdisp, hbody, ?_, ?_⟩
  · simp [after_transaction, after_echo, sevenseg_writes_append,
      sevenseg_writes_echo_events, sevenseg_writes]
  · intro h
    simp only [List.cons.injEq, and_true] at h
    obtain ⟨rfl, rfl, rfl, rfl, rfl, rfl, rfl, rfl, rfl⟩ := h
    have h8 : dispatch 'a'.toNat (be32 0 0 0 5) (be32 0 0 0 3) m = some (8, m) := by
      simp [dispatch, be32]
    rw [h8] at hdisp
    exact (Prod.mk.inj (Option.some.inj hdisp)).1.symm

/-- Witness for C1: the transaction 'a', 00 00 00 05, 00 00 00 03 on a register file that is
always ready, starting from the initial memory. -/
theorem C1_transaction_display_witness :
    Ready 9 (ready_io ['a'.toNat, 0, 0, 0, 5, 0, 0, 0, 3]) ∧
    (∃ t4 m1 io1,
      dispatch 'a'.toNat (0 * 2 ^ 24 + 0 * 2 ^ 16 + 0 * 2 ^ 8 + 5)
        (0 * 2 ^ 24 + 0 * 2 ^ 16 + 0 * 2 ^ 8 + 3) initial_mem = some (t4, m1) ∧
      main_body initial_mem (ready_io ['a'.toNat, 0, 0, 0, 5, 0, 0, 0, 3]) = some (m1, io1) ∧
      sevenseg_writes io1.trace =
        sevenseg_writes (ready_io ['a'.toNat, 0, 0, 0, 5, 0, 0, 0, 3]).trace ++ [t4] ∧
      (['a'.toNat, 0, 0, 0, 5, 0, 0, 0, 3] = ['a'.toNat, 0, 0, 0, 5, 0, 0, 0, 3] → t4 = 8)) ∧
    (main_body initial_mem (ready_io ['a'.toNat, 0, 0, 0, 5, 0, 0, 0, 3])).map
      (fun r => sevenseg_writes r.2.trace) = some [8] :=
  ⟨by decide,
   C1_transaction_display initial_mem (ready_io ['a'.toNat, 0, 0, 0, 5, 0, 0, 0, 3])
     'a'.toNat 0 0 0 5 0 0 0 3 [] (by decide) rfl (by decide),
   by decide⟩

/-- C2: let the received bytes be the 9n bytes `input`. If each status register still shows
ready 9n times, after however many polls that find it not ready, the first n passes of the
main loop complete. And whenever they complete, with no assumption on how long the polls
waited, the bytes written to the transmit-data register during them are exactly `input`
in the same order (as are the bytes read), and the n results went to the display register,
one write per pass, not to the transmit-data register. -/
theorem C2_echo_equals_input (n : Nat) (input rest : List Nat) (m : Mem) (io : Mmio)
    (hlen : input.length = 9 * n) (hlt : ∀ x ∈ input, x < 2 ^ 8)
    (hd : io.rx_data = input ++ rest) :
    (Live (9 * n) io → ∃ m1 io1, main n m io = some (m1, io1)) ∧
    (∀ m1 io1, main n m io = some (m1, io1) →
      Live (9 * n) io ∧
      tx_bytes io1.trace = tx_bytes io.trace ++ input ∧
      rx_bytes io1.trace = rx_bytes io.trace ++ input ∧
      (sevenseg_writes io1.trace).length = (sevenseg_writes io.trace).length + n) := by
  constructor
  · intro hl
    obtain ⟨m1, io1, h, -⟩ := main_live n input rest m io hlen hlt hl hd
    exact ⟨m1, io1, h⟩
  · intro m1 io1 h
    obtain ⟨hrx, htx⟩ := main_count n m m1 io io1 h
    have hl : Live (9 * n) io := ⟨by omega, by omega⟩
    obtain ⟨m2, io2, h', h2, h3, h4, -⟩ := main_live n input rest m io hlen hlt hl hd
    rw [h] at h'
    obtain ⟨-, rfl⟩ := Prod.mk.inj (Option.some.inj h')
    exact ⟨hl, h2, h3, h4⟩

/-- Witness for C2: two transactions, add 5 3 and sb 1 0xFF, on a register file where every
poll of the receive side waits one read and every poll of the transmit side two reads; it is
not always ready, and the run still echoes the 18 bytes and writes the display twice. -/
theorem C2_echo_equals_input_witness :
    (([97, 0, 0, 0, 5, 0, 0, 0, 3, 53, 0, 0, 0, 1, 0, 0, 0, 255] : List Nat).length = 9 * 2 ∧
      (∀ x ∈ ([97, 0, 0, 0, 5, 0, 0, 0, 3, 53, 0, 0, 0, 1, 0, 0, 0, 255] : List Nat),
        x < 2 ^ 8) ∧
      Live (9 * 2) (waiting_io [97, 0, 0, 0, 5, 0, 0, 0, 3, 53, 0, 0, 0, 1, 0, 0, 0, 255]) ∧
      ¬ Ready 1 (waiting_io [97, 0, 0, 0, 5, 0, 0, 0, 3, 53, 0, 0, 0, 1, 0, 0, 0, 255])) ∧
    (∃ m1 io1,
      main 2 initial_mem (waiting_io [97, 0, 0, 0, 5, 0, 0, 0, 3, 53, 0, 0, 0, 1, 0, 0, 0, 255]) =
        some (m1, io1) ∧
      tx_bytes io1.trace = [97, 0, 0, 0, 5, 0, 0, 0, 3, 53, 0, 0, 0, 1, 0, 0, 0, 255] ∧
      rx_bytes io1.trace = [97, 0, 0, 0, 5, 0, 0, 0, 3, 53, 0, 0, 0, 1, 0, 0, 0, 255] ∧
      (sevenseg_writes io1.trace).length = 2) ∧
    (main 2 initial_mem
        (waiting_io [97, 0, 0, 0, 5, 0, 0, 0, 3, 53, 0, 0, 0, 1, 0, 0, 0, 255])).map
      (fun r => (tx_bytes r.2.trace, sevenseg_writes r.2.trace)) =
      some ([97, 0, 0, 0, 5, 0, 0, 0, 3, 53, 0, 0, 0, 1, 0, 0, 0, 255], [8, 0xFF00]) := by
  have h := C2_echo_equals_input 2 [97, 0, 0, 0, 5, 0, 0, 0, 3, 53, 0, 0, 0, 1, 0, 0, 0, 255] []
    initial_mem (waiting_io [97, 0, 0, 0, 5, 0, 0, 0, 3, 53, 0, 0, 0, 1, 0, 0, 0, 255])
    (by decide) (by decide) rfl
  obtain ⟨m1, io1, hm⟩ := h.1 (by decide)
  obtain ⟨-, h2, h3, h4⟩ := h.2 m1 io1 hm
  exact ⟨⟨by decide, by decide, by decide, by decide⟩, ⟨m1, io1, hm, h2, h3, h4⟩, by decide⟩

/-- C3: with right operand 0, each of div ('d'), divu ('D'), rem ('r') and remu ('M') gives
the result 0xFFFFFFFF for every left operand and leaves the memory as it was; in particular
div with a = 10, b = 0 gives 0xFFFFFFFF. -/
theorem C3_divide_by_zero_sentinel (a : Nat) (m : Mem) :
    dispatch 'd'.toNat a 0 m = some (0xFFFFFFFF, m) ∧
    dispatch 'D'.toNat a 0 m = some (0xFFFFFFFF, m) ∧
    dispatch 'r'.toNat a 0 m = some (0xFFFFFFFF, m) ∧
    dispatch 'M'.toNat a 0 m = some (0xFFFFFFFF, m) ∧
    dispatch 'd'.toNat 10 0 m = some (0xFFFFFFFF, m) := by
  refine ⟨?_, ?_, ?_, ?_, ?_⟩ <;> simp [dispatch]

/-- C4: a command byte without a case label in the switch gives the result 0 for all
operands and leaves both arrays unchanged. -/
theorem C4_unrecognized_opcode (c : Nat) (hc : c ∉ recognized) (a b : Nat) (m : Mem) :
    dispatch c a b m = some (0, m) :=
  dispatch_unrecognized c hc a b m

/-- Witness for C4 at the command byte 'z' with operands 7 and 9 on the initial memory. -/
theorem C4_unrecognized_opcode_witness :
    'z'.toNat ∉ recognized ∧ dispatch 'z'.toNat 7 9 initial_mem = some (0, initial_mem) :=
  ⟨by decide, C4_unrecognized_opcode 'z'.toNat (by decide) 7 9 initial_mem⟩

/-- C5: for sll ('L'), srl ('R') and sra ('A') the outcome with right operand b is the
outcome with right operand b mod 32, and also the outcome with b + 32; sll with a = 1,
b = 33 gives 2. -/
theorem C5_shift_amount_mod_32 (a b : Nat) (m : Mem) :
    dispatch 'L'.toNat a b m = dispatch 'L'.toNat a (b % 32) m ∧
    dispatch 'R'.toNat a b m = dispatch 'R'.toNat a (b % 32) m ∧
    dispatch 'A'.toNat a b m = dispatch 'A'.toNat a (b % 32) m ∧
    dispatch 'L'.toNat a b m = dispatch 'L'.toNat a (b + 32) m ∧
    dispatch 'R'.toNat a b m = dispatch 'R'.toNat a (b + 32) m ∧
    dispatch 'A'.toNat a b m = dispatch 'A'.toNat a (b + 32) m ∧
    dispatch 'L'.toNat 1 33 m = some (2, m) := by
  refine ⟨?_, ?_, ?_, ?_, ?_, ?_, ?_⟩ <;>
    simp [dispatch, mod_32_and_31, add_32_and_31]

/-- C6 as stated fails: on the initial memory lb ('1') with left operand 0 and right operand
0 gives 0x00000078, not 0x00000012. -/
theorem C6_lb_zero_is_not_0x12 :
    dispatch '1'.toNat 0 0 initial_mem = some (0x00000078, initial_mem) ∧
    (dispatch '1'.toNat 0 0 initial_mem).map Prod.fst ≠ some 0x00000012 := by
  constructor
  · rfl
  · decide

/-- C6, amended: lb ('1') with left operand 0 and any right operand gives 0x00000078 on the
initial memory and leaves it unchanged; 0x78 is the byte at offset 0 of the constant buffer,
the least significant byte of its first word 0x12345678. -/
theorem C6_lb_zero_is_low_byte (b : Nat) :
    dispatch '1'.toNat 0 b initial_mem = some (0x00000078, initial_mem) ∧
    load_u8 initial_mem.test_data 0 = some (0x12345678 % 2 ^ 8) := by
  constructor
  · rfl
  · decide

/-- C7: for all operands and any previous scratch contents, sb ('5') gives
(b & 0xFF) << (8 * (a & 3)), which is also the new content of the scratch word; byte k of
that word is the low byte of b for k = a & 3 and 0 for the other three indices; the constant
buffer is unchanged; and a = 0, b = 0xFF gives 0x000000FF. -/
theorem C7_store_byte_result (a b : Nat) (m : Mem) :
    dispatch '5'.toNat a b m =
      some ((b &&& 0xFF) <<< (8 * (a &&& 0x3)),
        { m with scratch_mem := fun _ => (b &&& 0xFF) <<< (8 * (a &&& 0x3)) }) ∧
    (∀ k, k < 4 →
      load_u8 (fun _ : Fin 1 => (b &&& 0xFF) <<< (8 * (a &&& 0x3))) k =
        some (if k = a &&& 0x3 then b &&& 0xFF else 0)) ∧
    (dispatch '5'.toNat 0 0xFF m).map Prod.fst = some 0x000000FF := by
  have hoff := and_mask_lt a 0x3
  have hv := and_255_lt b
  refine ⟨?_, ?_, ?_⟩
  · rw [dispatch_sb, store_u8_cleared _ _ _ hoff hv]; rfl
  · intro k hk
    have hin : k / 4 < 1 := by omega
    unfold load_u8
    rw [dif_pos hin, Nat.mod_eq_of_lt hk, Nat.shiftLeft_eq]
    congr 1
    generalize b &&& 0xFF = v at hv
    norm_num at hv
    rcases and_3_cases a with h | h | h | h <;> rw [h] <;>
      interval_cases k <;> norm_num <;> omega
  · rw [dispatch_sb, store_u8_cleared _ _ _ (by decide) (by decide)]; rfl

/-- C8: for every b and any previous scratch contents, sh ('6') gives b & 0xFFFF when
(a & 2) = 0 and (b & 0xFFFF) << 16 when (a & 2) = 2; in both cases the scratch word read
back after the command is the returned value, and a & 2 takes no other value. -/
theorem C8_store_half_result (a b : Nat) (m : Mem) :
    (a &&& 0x2 = 0 →
      dispatch '6'.toNat a b m =
        some (b &&& 0xFFFF, { m with scratch_mem := fun _ => b &&& 0xFFFF })) ∧
    (a &&& 0x2 = 2 →
      dispatch '6'.toNat a b m =
        some ((b &&& 0xFFFF) <<< 16, { m with scratch_mem := fun _ => (b &&& 0xFFFF) <<< 16 })) ∧
    (a &&& 0x2 = 0 ∨ a &&& 0x2 = 2) := by
  have hv := and_65535_lt b
  refine ⟨?_, ?_, and_2_cases a⟩
  · intro h
    rw [dispatch_sh, h, store_u16_cleared _ _ _ (by decide) hv]; rfl
  · intro h
    rw [dispatch_sh, h, store_u16_cleared _ _ _ (by decide) hv]; rfl

/-- Witness for C8: a = 4 has (a & 2) = 0 and a = 6 has (a & 2) = 2, with b = 0x12345 and
the initial memory. -/
theorem C8_store_half_result_witness :
    (4 &&& 0x2 = 0 ∧ (dispatch '6'.toNat 4 0x12345 initial_mem).map Prod.fst = some 0x2345) ∧
    (6 &&& 0x2 = 2 ∧
      (dispatch '6'.toNat 6 0x12345 initial_mem).map Prod.fst = some 0x23450000) :=
  ⟨⟨by decide, by
      rw [(C8_store_half_result 4 0x12345 initial_mem).1 (by decide)]; decide⟩,
   ⟨by decide, by
      rw [(C8_store_half_result 6 0x12345 initial_mem).2.1 (by decide)]; decide⟩⟩

/-- C9: for every left operand a the byte loads read `test_data` at byte index a & 0xF, which
is below 16, so the read succeeds; lbu ('2') returns that byte, a value below 256, and lb
('1') returns it sign-extended from 8 bits; both give the same outcome for a and for
a & 0xF, and neither changes the memory. -/
theorem C9_byte_loads_masked (a b : Nat) (m : Mem) :
    a &&& 0xF < 16 ∧
    ∃ byte, load_u8 m.test_data (a &&& 0xF) = some byte ∧ byte < 256 ∧
      dispatch '2'.toNat a b m = some (byte, m) ∧
      dispatch '1'.toNat a b m = some (sext8 byte, m) ∧
      dispatch '1'.toNat a b m = dispatch '1'.toNat (a &&& 0xF) b m ∧
      dispatch '2'.toNat a b m = dispatch '2'.toNat (a &&& 0xF) b m := by
  have hlt := and_mask_lt a 0xF
  refine ⟨hlt, _, load_u8_test_data m.test_data a, Nat.mod_lt _ (by decide), ?_, ?_, ?_, ?_⟩
  · rw [dispatch_lbu, load_u8_test_data]; rfl
  · rw [dispatch_lb, load_u8_test_data, Option.map_some', u32_i8 _ (Nat.mod_lt _ (by decide))]
  · rw [dispatch_lb, dispatch_lb, and_15_idem]
  · rw [dispatch_lbu, dispatch_lbu, and_15_idem]

/-- C10: for every left operand a, with i = a & 0xE, the index i + 1 is at most 15, and with
lo and hi the results of lbu ('2') at the indices i and i + 1, lhu ('4') gives
lo + 256 * hi and lh ('3') gives that 16-bit value sign-extended to 32 bits; the memory is
unchanged. -/
theorem C10_half_loads_little_endian (a b : Nat) (m : Mem) :
    (a &&& 0xE) + 1 ≤ 15 ∧
    ∃ lo hi, dispatch '2'.toNat (a &&& 0xE) b m = some (lo, m) ∧
      dispatch '2'.toNat ((a &&& 0xE) + 1) b m = some (hi, m) ∧
      dispatch '4'.toNat a b m = some (lo + 256 * hi, m) ∧
      dispatch '3'.toNat a b m = some (sext16 (lo + 256 * hi), m) := by
  have hlt := and_mask_lt a 0xE
  have heven : (a &&& 0xE) % 2 = 0 := by
    rcases and_14_cases a with h | h | h | h | h | h | h | h <;> rw [h]
  obtain ⟨lo, hi, hlo, hhi, hhalf, hbound⟩ :=
    load_u16_bytes m.test_data (a &&& 0xE) heven (by omega)
  refine ⟨by omega, lo, hi, ?_, ?_, ?_, ?_⟩
  · rw [dispatch_lbu, and_15_of_lt _ (by omega), hlo]; rfl
  · rw [dispatch_lbu, and_15_of_lt _ (by omega), hhi]; rfl
  · rw [dispatch_lhu, hhalf]; rfl
  · rw [dispatch_lh, hhalf, Option.map_some', u32_i16 _ hbound]

/-- C11: for every a below 2^32 and every b other than 0, with q the result of divu ('D') and
r the result of remu ('M'), q * b + r does not exceed a, also when the sum is reduced modulo
2^32; the sum is in fact a itself. -/
theorem C11_divu_remu_identity (a b : Nat) (m : Mem) (ha : a < 2 ^ 32) (hb : b ≠ 0) :
    ∃ q r, dispatch 'D'.toNat a b m = some (q, m) ∧ dispatch 'M'.toNat a b m = some (r, m) ∧
      q * b + r ≤ a ∧ (q * b + r) % 2 ^ 32 ≤ a ∧ q * b + r = a := by
  have hsum : a / b * b + a % b = a := Nat.div_add_mod' a b
  refine ⟨a / b, a % b, ?_, ?_, le_of_eq hsum, ?_, hsum⟩
  · rw [dispatch_divu, if_neg hb]
  · rw [dispatch_remu, if_neg hb]
  · rw [hsum, Nat.mod_eq_of_lt ha]

/-- Witness for C11 at a = 0xFFFFFFFF, b = 7 on the initial memory. -/
theorem C11_divu_remu_identity_witness :
    (0xFFFFFFFF < 2 ^ 32 ∧ (7 : Nat) ≠ 0) ∧
    ∃ q r, dispatch 'D'.toNat 0xFFFFFFFF 7 initial_mem = some (q, initial_mem) ∧
      dispatch 'M'.toNat 0xFFFFFFFF 7 initial_mem = some (r, initial_mem) ∧
      q * 7 + r ≤ 0xFFFFFFFF ∧ (q * 7 + r) % 2 ^ 32 ≤ 0xFFFFFFFF ∧ q * 7 + r = 0xFFFFFFFF :=
  ⟨⟨by decide, by decide⟩,
   C11_divu_remu_identity 0xFFFFFFFF 7 initial_mem (by decide) (by decide)⟩

/-- C12: for every a below 2^32 and every b, with d the result of sub ('s'), d + b reduced
modulo 2^32 is a, and add ('a') applied to d and b gives a. -/
theorem C12_sub_then_add (a b : Nat) (m : Mem) (ha : a < 2 ^ 32) :
    ∃ d, dispatch 's'.toNat a b m = some (d, m) ∧ (d + b) % 2 ^ 32 = a ∧
      dispatch 'a'.toNat d b m = some (a, m) := by
  have key : (u32 ((a : Int) - (b : Int)) + b) % 2 ^ 32 = a := by
    unfold u32
    norm_num at ha ⊢
    omega
  exact ⟨_, dispatch_sub a b m, key, by rw [dispatch_add, key]⟩

/-- Witness for C12 at a = 3, b = 5 (the difference wraps to 0xFFFFFFFE). -/
theorem C12_sub_then_add_witness :
    (3 < 2 ^ 32) ∧
    ∃ d, dispatch 's'.toNat 3 5 initial_mem = some (d, initial_mem) ∧ (d + 5) % 2 ^ 32 = 3 ∧
      dispatch 'a'.toNat d 5 initial_mem = some (3, initial_mem) :=
  ⟨by decide, C12_sub_then_add 3 5 initial_mem (by decide)⟩

/-- C13: for all a, b below 2^32, with hi the result of mulhu ('h') and lo the result of
mul ('m'), hi * 2^32 + lo is the product a * b of natural numbers, lo is the product modulo
2^32 and hi is the product divided by 2^32. -/
theorem C13_mulhu_mul_split (a b : Nat) (m : Mem) (ha : a < 2 ^ 32) (hb : b < 2 ^ 32) :
    ∃ hi lo, dispatch 'h'.toNat a b m = some (hi, m) ∧ dispatch 'm'.toNat a b m = some (lo, m) ∧
      hi * 2 ^ 32 + lo = a * b ∧ lo = a * b % 2 ^ 32 ∧ hi = a * b / 2 ^ 32 := by
  have hp := mul_lt_two_pow_64 a b ha hb
  refine ⟨_, _, dispatch_mulhu a b m, dispatch_mul a b m, ?_, rfl, ?_⟩
  · rw [Nat.shiftRight_eq_div_pow]
    generalize a * b = p at hp
    norm_num at hp ⊢
    omega
  · rw [Nat.shiftRight_eq_div_pow]
    generalize a * b = p at hp
    norm_num at hp ⊢
    omega

/-- Witness for C13 at a = b = 0xFFFFFFFF. -/
theorem C13_mulhu_mul_split_witness :
    (0xFFFFFFFF < 2 ^ 32 ∧ 0xFFFFFFFF < 2 ^ 32) ∧
    ∃ hi lo, dispatch 'h'.toNat 0xFFFFFFFF 0xFFFFFFFF initial_mem = some (hi, initial_mem) ∧
      dispatch 'm'.toNat 0xFFFFFFFF 0xFFFFFFFF initial_mem = some (lo, initial_mem) ∧
      hi * 2 ^ 32 + lo = 0xFFFFFFFF * 0xFFFFFFFF ∧ lo = 0xFFFFFFFF * 0xFFFFFFFF % 2 ^ 32 ∧
      hi = 0xFFFFFFFF * 0xFFFFFFFF / 2 ^ 32 :=
  ⟨⟨by decide, by decide⟩,
   C13_mulhu_mul_split 0xFFFFFFFF 0xFFFFFFFF initial_mem (by decide) (by decide)⟩

/-- C14: for all a, b below 2^32, with hi the result of mulh ('H') and lo the result of
mul ('m'), signed(hi) * 2^32 + lo is the integer product signed(a) * signed(b), and hi is
floor(signed(a) * signed(b) / 2^32) reduced modulo 2^32. -/
theorem C14_mulh_signed_high (a b : Nat) (m : Mem) (ha : a < 2 ^ 32) (hb : b < 2 ^ 32) :
    ∃ hi lo, dispatch 'H'.toNat a b m = some (hi, m) ∧ dispatch 'm'.toNat a b m = some (lo, m) ∧
      i32 hi * 2 ^ 32 + (lo : Int) = i32 a * i32 b ∧
      (hi : Int) = (i32 a * i32 b / 2 ^ 32) % 2 ^ 32 := by
  obtain ⟨hp1, hp2⟩ := i32_mul_bounds a b ha hb
  have hlo : (((a * b) % 2 ^ 32 : Nat) : Int) = (i32 a * i32 b) % 2 ^ 32 := by
    have h : i32 a * i32 b ≡ ((a * b : Nat) : Int) [ZMOD 2 ^ 32] := by
      rw [Nat.cast_mul]
      exact (i32_modEq a).mul (i32_modEq b)
    have h' : (i32 a * i32 b) % 2 ^ 32 = ((a * b : Nat) : Int) % 2 ^ 32 := h
    rw [h']
    norm_cast
  refine ⟨_, _, dispatch_mulh a b m, dispatch_mul a b m, ?_, ?_⟩
  · rw [hlo, shiftRight_32_eq_div]
    generalize i32 a * i32 b = p at hp1 hp2
    rw [i32_u32 _ (by norm_num at hp1 hp2 ⊢; omega) (by norm_num at hp1 hp2 ⊢; omega)]
    norm_num
    omega
  · rw [u32_cast, shiftRight_32_eq_div]

/-- Witness for C14 at a = 0xFFFFFFFF (signed -1), b = 2: the high word is 0xFFFFFFFF. -/
theorem C14_mulh_signed_high_witness :
    (0xFFFFFFFF < 2 ^ 32 ∧ 2 < 2 ^ 32) ∧
    ∃ hi lo, dispatch 'H'.toNat 0xFFFFFFFF 2 initial_mem = some (hi, initial_mem) ∧
      dispatch 'm'.toNat 0xFFFFFFFF 2 initial_mem = some (lo, initial_mem) ∧
      i32 hi * 2 ^ 32 + (lo : Int) = i32 0xFFFFFFFF * i32 2 ∧
      (hi : Int) = (i32 0xFFFFFFFF * i32 2 / 2 ^ 32) % 2 ^ 32 :=
  ⟨⟨by decide, by decide⟩,
   C14_mulh_signed_high 0xFFFFFFFF 2 initial_mem (by decide) (by decide)⟩

/-- C15: for every a below 2^32 and every b, the result of sra ('A') is
floor(signed(a) / 2^(b & 31)) reduced modulo 2^32; when bit 31 of a is set its top
(b & 31) + 1 bits are all set, and when bit 31 of a is clear it is the result of srl ('R'). -/
theorem C15_sra_sign_extends (a b : Nat) (m : Mem) (ha : a < 2 ^ 32) :
    ∃ r, dispatch 'A'.toNat a b m = some (r, m) ∧ r < 2 ^ 32 ∧
      (r : Int) = (i32 a / 2 ^ (b &&& 31)) % 2 ^ 32 ∧
      (2 ^ 31 ≤ a → r >>> (31 - (b &&& 31)) = 2 ^ ((b &&& 31) + 1) - 1) ∧
      (a < 2 ^ 31 → dispatch 'R'.toNat a b m = some (r, m)) := by
  have hn : b &&& 31 ≤ 31 := Nat.and_le_right
  refine ⟨_, dispatch_sra a b m, u32_lt _, ?_, ?_, ?_⟩
  · rw [u32_cast, Int.shiftRight_eq_div_pow]
    norm_cast
  · intro h31
    exact sra_negative a (b &&& 31) ha hn h31
  · intro h
    rw [dispatch_srl]
    exact congrArg (fun v => some (v, m)) (sra_nonneg a (b &&& 31) h).symm

/-- Witness for C15: a = 0x80000000 with b = 4 (bit 31 set) gives 0xF8000000, and
a = 0x40000000 with b = 36 (bit 31 clear, shift amount 4) gives 0x04000000. -/
theorem C15_sra_sign_extends_witness :
    ((0x80000000 < 2 ^ 32 ∧ 2 ^ 31 ≤ 0x80000000) ∧
      ∃ r, dispatch 'A'.toNat 0x80000000 4 initial_mem = some (r, initial_mem) ∧ r < 2 ^ 32 ∧
        (r : Int) = (i32 0x80000000 / 2 ^ (4 &&& 31)) % 2 ^ 32 ∧
        (2 ^ 31 ≤ 0x80000000 → r >>> (31 - (4 &&& 31)) = 2 ^ ((4 &&& 31) + 1) - 1) ∧
        (0x80000000 < 2 ^ 31 → dispatch 'R'.toNat 0x80000000 4 initial_mem =
          some (r, initial_mem))) ∧
    ((0x40000000 < 2 ^ 32 ∧ 0x40000000 < 2 ^ 31) ∧
      ∃ r, dispatch 'A'.toNat 0x40000000 36 initial_mem = some (r, initial_mem) ∧ r < 2 ^ 32 ∧
        (r : Int) = (i32 0x40000000 / 2 ^ (36 &&& 31)) % 2 ^ 32 ∧
        (2 ^ 31 ≤ 0x40000000 → r >>> (31 - (36 &&& 31)) = 2 ^ ((36 &&& 31) + 1) - 1) ∧
        (0x40000000 < 2 ^ 31 → dispatch 'R'.toNat 0x40000000 36 initial_mem =
          some (r, initial_mem))) ∧
    dispatch 'A'.toNat 0x80000000 4 initial_mem = some (0xF8000000, initial_mem) ∧
    dispatch 'A'.toNat 0x40000000 36 initial_mem = some (0x04000000, initial_mem) :=
  ⟨⟨⟨by decide, by decide⟩, C15_sra_sign_extends 0x80000000 4 initial_mem (by decide)⟩,
   ⟨⟨by decide, by decide⟩, C15_sra_sign_extends 0x40000000 36 initial_mem (by decide)⟩,
   by rfl, by rfl⟩

/-- C16: for sb ('5') and sh ('6'), all operands and any two memories (so any two previous
scratch contents), both runs return the same result, and in each the scratch word after the
command is the returned result. -/
theorem C16_store_ignores_history (a b : Nat) (m1 m2 : Mem) :
    (∃ r n1 n2, dispatch '5'.toNat a b m1 = some (r, n1) ∧
      dispatch '5'.toNat a b m2 = some (r, n2) ∧
      n1.scratch_mem 0 = r ∧ n2.scratch_mem 0 = r) ∧
    (∃ r n1 n2, dispatch '6'.toNat a b m1 = some (r, n1) ∧
      dispatch '6'.toNat a b m2 = some (r, n2) ∧
      n1.scratch_mem 0 = r ∧ n2.scratch_mem 0 = r) :=
  ⟨⟨_, _, _, dispatch_sb_result a b m1, dispatch_sb_result a b m2, rfl, rfl⟩,
   ⟨_, _, _, dispatch_sh_result a b m1, dispatch_sh_result a b m2, rfl, rfl⟩⟩

/-- C17: let the next nine received bytes be c, a0..a3, b0..b3. If each status register still
shows ready nine times, after however many polls that find it not ready, one pass of the main
loop completes. And whenever it completes, with no assumption on how long the polls waited,
the accesses to the data registers it made are, in order, Rx c, Tx c, Rx a0, Tx a0, ...,
Rx b3, Tx b3 and then the display write of the switch result: reads and writes alternate
starting with a read, each write carries the byte just read, and the display write comes
after all 18 of them. -/
theorem C17_echo_before_next_byte (m : Mem) (io : Mmio) (c a0 a1 a2 a3 b0 b1 b2 b3 : Nat)
    (rest : List Nat)
    (hd : io.rx_data = [c, a0, a1, a2, a3, b0, b1, b2, b3] ++ rest)
    (hlt : ∀ x ∈ [c, a0, a1, a2, a3, b0, b1, b2, b3], x < 2 ^ 8) :
    (Live 9 io → ∃ m1 io1, main_body m io = some (m1, io1)) ∧
    (∀ m1 io1, main_body m io = some (m1, io1) →
      Live 9 io ∧
      ∃ t4, dispatch c (be32 a0 a1 a2 a3) (be32 b0 b1 b2 b3) m = some (t4, m1) ∧
        io1.trace = io.trace ++
          [Event.rx c, Event.tx c, Event.rx a0, Event.tx a0, Event.rx a1, Event.tx a1,
           Event.rx a2, Event.tx a2, Event.rx a3, Event.tx a3, Event.rx b0, Event.tx b0,
           Event.rx b1, Event.tx b1, Event.rx b2, Event.tx b2, Event.rx b3, Event.tx b3,
           Event.sevenseg t4]) := by
  constructor
  · intro hl
    obtain ⟨t4, m1, io1, -, h, -⟩ := main_body_live m io c a0 a1 a2 a3 b0 b1 b2 b3 rest hl hd hlt
    exact ⟨m1, io1, h⟩
  · intro m1 io1 h
    obtain ⟨hrx, htx⟩ := main_body_count m m1 io io1 h
    have hl : Live 9 io := ⟨by omega, by omega⟩
    obtain ⟨t4, m2, io2, hdisp, h', -, ht, -⟩ :=
      main_body_live m io c a0 a1 a2 a3 b0 b1 b2 b3 rest hl hd hlt
    rw [h] at h'
    obtain ⟨rfl, rfl⟩ := Prod.mk.inj (Option.some.inj h')
    refine ⟨hl, t4, hdisp, ?_⟩
    rw [ht]
    simp [echo_events]

/-- Witness for C17: the transaction 's', 00 00 00 03, 00 00 00 05 on a register file where
every poll waits; the trace is the alternating one and ends with the display write of
0xFFFFFFFE. -/
theorem C17_echo_before_next_byte_witness :
    ((∀ x ∈ ['s'.toNat, 0, 0, 0, 3, 0, 0, 0, 5], x < 2 ^ 8) ∧
      Live 9 (waiting_io ['s'.toNat, 0, 0, 0, 3, 0, 0, 0, 5]) ∧
      ¬ Ready 1 (waiting_io ['s'.toNat, 0, 0, 0, 3, 0, 0, 0, 5])) ∧
    (∃ m1 io1,
      main_body initial_mem (waiting_io ['s'.toNat, 0, 0, 0, 3, 0, 0, 0, 5]) = some (m1, io1) ∧
      ∃ t4, dispatch 's'.toNat (be32 0 0 0 3) (be32 0 0 0 5) initial_mem = some (t4, m1) ∧
        io1.trace = (waiting_io ['s'.toNat, 0, 0, 0, 3, 0, 0, 0, 5]).trace ++
          [Event.rx 's'.toNat, Event.tx 's'.toNat, Event.rx 0, Event.tx 0, Event.rx 0,
           Event.tx 0, Event.rx 0, Event.tx 0, Event.rx 3, Event.tx 3, Event.rx 0, Event.tx 0,
           Event.rx 0, Event.tx 0, Event.rx 0, Event.tx 0, Event.rx 5, Event.tx 5,
           Event.sevenseg t4]) ∧
    (main_body initial_mem (waiting_io ['s'.toNat, 0, 0, 0, 3, 0, 0, 0, 5])).map
      (fun r => sevenseg_writes r.2.trace) = some [0xFFFFFFFE] := by
  have h := C17_echo_before_next_byte initial_mem
    (waiting_io ['s'.toNat, 0, 0, 0, 3, 0, 0, 0, 5]) 's'.toNat 0 0 0 3 0 0 0 5 [] rfl (by decide)
  obtain ⟨m1, io1, hm⟩ := h.1 (by decide)
  obtain ⟨-, t4, h2, h3⟩ := h.2 m1 io1 hm
  exact ⟨⟨by decide, by decide, by decide⟩, ⟨m1, io1, hm, t4, h2, h3⟩, by decide⟩

/-- C18 as stated fails: the switch has 27 pairwise distinct case labels, not 22. -/
theorem C18_case_labels_not_22 :
    recognized.Nodup ∧ recognized.length = 27 ∧
    ((Finset.range 256).filter (fun c => c ∈ recognized)).card ≠ 22 := by
  refine ⟨by decide, by decide, by decide⟩

/-- C18, amended: the switch recognizes exactly 27 operations. Its 27 case labels are
pairwise distinct bytes; a byte that is none of them gives the result 0 and leaves the
memory alone for all operands; and each of the 27 has operands for which the outcome on the
initial memory differs from that no-op outcome. -/
theorem C18_case_labels_are_27 :
    recognized.Nodup ∧ recognized.length = 27 ∧
    ((Finset.range 256).filter (fun c => c ∈ recognized)).card = 27 ∧
    (∀ c, c ∉ recognized → ∀ a b m, dispatch c a b m = some (0, m)) ∧
    (∀ c ∈ recognized, ∃ a ∈ [0, 1, 0xFFFFFFFF], ∃ b ∈ [1, 2],
      dispatch c a b initial_mem ≠ some (0, initial_mem)) := by
  refine ⟨by decide, by decide, by decide, ?_, by decide⟩
  intro c hc a b m
  exact dispatch_unrecognized c hc a b m

/-- C19: for every command byte, all operands and any memory, the switch returns a result
and a memory whose constant buffer is the one it was given, word for word and so byte for
byte at each of the 16 byte offsets; and unless the command is sb ('5') or sh ('6') the
scratch buffer is also the one it was given. -/
theorem C19_constant_buffer_unchanged (c a b : Nat) (m : Mem) :
    ∃ t4 m1, dispatch c a b m = some (t4, m1) ∧ m1.test_data = m.test_data ∧
      (∀ k, k < 16 → load_u8 m1.test_data k = load_u8 m.test_data k) ∧
      (c ≠ '5'.toNat → c ≠ '6'.toNat → m1.scratch_mem = m.scratch_mem) := by
  by_cases h5 : c = '5'.toNat
  · subst h5
    exact ⟨_, _, dispatch_sb_result a b m, rfl, fun _ _ => rfl, fun h => absurd rfl h⟩
  by_cases h6 : c = '6'.toNat
  · subst h6
    exact ⟨_, _, dispatch_sh_result a b m, rfl, fun _ _ => rfl, fun _ h => absurd rfl h⟩
  obtain ⟨t4, h⟩ := dispatch_keeps_mem c a b m h5 h6
  exact ⟨t4, m, h, rfl, fun _ _ => rfl, fun _ _ => rfl⟩

/-- Witness for C19: add ('a') with operands 5 and 3 is neither store and leaves both buffers
of the initial memory as they were. -/
theorem C19_constant_buffer_unchanged_witness :
    ('a'.toNat ≠ '5'.toNat ∧ 'a'.toNat ≠ '6'.toNat) ∧
    ∃ t4 m1, dispatch 'a'.toNat 5 3 initial_mem = some (t4, m1) ∧
      m1.test_data = initial_mem.test_data ∧
      (∀ k, k < 16 → load_u8 m1.test_data k = load_u8 initial_mem.test_data k) ∧
      m1.scratch_mem = initial_mem.scratch_mem := by
  obtain ⟨t4, m1, h1, h2, h3, h4⟩ := C19_constant_buffer_unchanged 'a'.toNat 5 3 initial_mem
  exact ⟨⟨by decide, by decide⟩, t4, m1, h1, h2, h3, h4 (by decide) (by decide)⟩

/-- C20: for every a below 2^32 and every b below 2^32 other than 0, div ('d') and rem ('r')
both return a result, q and r, with (q * b + r) mod 2^32 = a, |signed(r)| < |signed(b)|, and
signed(r) zero or of the sign of signed(a); except for a = 0x80000000 with b = 0xFFFFFFFF the
identity signed(q) * signed(b) + signed(r) = signed(a) holds exactly over the integers, which
with the bound and the sign of the remainder makes signed(q) the quotient truncated toward
zero; and for a = 0x80000000 with b = 0xFFFFFFFF the results are q = 0x80000000 and r = 0. -/
theorem C20_signed_div_rem (a b : Nat) (m : Mem) (ha : a < 2 ^ 32) (hb : b < 2 ^ 32)
    (h0 : b ≠ 0) :
    ∃ q r, dispatch 'd'.toNat a b m = some (q, m) ∧ dispatch 'r'.toNat a b m = some (r, m) ∧
      (q * b + r) % 2 ^ 32 = a ∧
      |i32 r| < |i32 b| ∧
      (i32 r = 0 ∨ (0 < i32 r ∧ 0 < i32 a) ∨ (i32 r < 0 ∧ i32 a < 0)) ∧
      (¬ (a = 0x80000000 ∧ b = 0xFFFFFFFF) → i32 q * i32 b + i32 r = i32 a) ∧
      (a = 0x80000000 → b = 0xFFFFFFFF → q = 0x80000000 ∧ r = 0) := by
  obtain ⟨q, r, hq, hr, hid, habs, hsign, hrem, hquot⟩ := signed_div_rem_spec a b m ha hb h0
  refine ⟨q, r, hq, hr, hid, habs, hsign, ?_, ?_⟩
  · intro hne
    rw [hquot hne, hrem]
    exact Int.tdiv_add_tmod' _ _
  · rintro rfl rfl
    have hq' : dispatch 'd'.toNat 0x80000000 0xFFFFFFFF m = some (0x80000000, m) := by
      rw [dispatch_div]; rfl
    have hr' : dispatch 'r'.toNat 0x80000000 0xFFFFFFFF m = some (0, m) := by
      rw [dispatch_rem]; rfl
    rw [hq'] at hq
    rw [hr'] at hr
    exact ⟨((Prod.mk.inj (Option.some.inj hq)).1).symm, ((Prod.mk.inj (Option.some.inj hr)).1).symm⟩

/-- Witness for C20: INT_MIN / -1 (a = 0x80000000, b = 0xFFFFFFFF), which gives 0x80000000 and
remainder 0, and -7 / 2 (a = 0xFFFFFFF9, b = 2), which gives -3 and remainder -1. -/
theorem C20_signed_div_rem_witness :
    ((0x80000000 < 2 ^ 32 ∧ 0xFFFFFFFF < 2 ^ 32 ∧ 0xFFFFFFFF ≠ 0) ∧
      ∃ q r, dispatch 'd'.toNat 0x80000000 0xFFFFFFFF initial_mem = some (q, initial_mem) ∧
        dispatch 'r'.toNat 0x80000000 0xFFFFFFFF initial_mem = some (r, initial_mem) ∧
        (q * 0xFFFFFFFF + r) % 2 ^ 32 = 0x80000000 ∧
        |i32 r| < |i32 0xFFFFFFFF| ∧
        (i32 r = 0 ∨ (0 < i32 r ∧ 0 < i32 0x80000000) ∨ (i32 r < 0 ∧ i32 0x80000000 < 0)) ∧
        (¬ (0x80000000 = 0x80000000 ∧ 0xFFFFFFFF = 0xFFFFFFFF) →
          i32 q * i32 0xFFFFFFFF + i32 r = i32 0x80000000) ∧
        (0x80000000 = 0x80000000 → 0xFFFFFFFF = 0xFFFFFFFF → q = 0x80000000 ∧ r = 0)) ∧
    ((0xFFFFFFF9 < 2 ^ 32 ∧ 2 < 2 ^ 32 ∧ 2 ≠ 0) ∧
      ∃ q r, dispatch 'd'.toNat 0xFFFFFFF9 2 initial_mem = some (q, initial_mem) ∧
        dispatch 'r'.toNat 0xFFFFFFF9 2 initial_mem = some (r, initial_mem) ∧
        (q * 2 + r) % 2 ^ 32 = 0xFFFFFFF9 ∧
        |i32 r| < |i32 2| ∧
        (i32 r = 0 ∨ (0 < i32 r ∧ 0 < i32 0xFFFFFFF9) ∨ (i32 r < 0 ∧ i32 0xFFFFFFF9 < 0)) ∧
        (¬ (0xFFFFFFF9 = 0x80000000 ∧ 2 = 0xFFFFFFFF) →
          i32 q * i32 2 + i32 r = i32 0xFFFFFFF9) ∧
        (0xFFFFFFF9 = 0x80000000 → 2 = 0xFFFFFFFF → q = 0x80000000 ∧ r = 0)) ∧
    dispatch 'd'.toNat 0x80000000 0xFFFFFFFF initial_mem = some (0x80000000, initial_mem) ∧
    dispatch 'r'.toNat 0x80000000 0xFFFFFFFF initial_mem = some (0, initial_mem) ∧
    dispatch 'd'.toNat 0xFFFFFFF9 2 initial_mem = some (0xFFFFFFFD, initial_mem) ∧
    dispatch 'r'.toNat 0xFFFFFFF9 2 initial_mem = some (0xFFFFFFFF, initial_mem) :=
  ⟨⟨⟨by decide, by decide, by decide⟩,
    C20_signed_div_rem 0x80000000 0xFFFFFFFF initial_mem (by decide) (by decide) (by decide)⟩,
   ⟨⟨by decide, by decide, by decide⟩,
    C20_signed_div_rem 0xFFFFFFF9 2 initial_mem (by decide) (by decide) (by decide)⟩,
   by rfl, by rfl, by rfl, by rfl⟩

end MachV
